import Mathlib

/-!
Shallow embedding of the hopscotch hash map from ostafen/hopmap (map.go, plus
the earlier variant of the same file without the AutoResize flag), together
with a well-formedness invariant and proofs of the specification claims.

Modelling conventions:
* Go `uint32` values are `Nat` (always `< 2 ^ 32` where it matters; bitmap
  words are reduced `% 2 ^ 32` after shifts).
* Go `int` values that can be negative (slot search results, the signed
  modulus helper) are `Int`.
* Go slices are `List`s accessed with `getD` and updated with `set`.
* The `Hashable` contract (`Equals`, `HashCode`) is modelled by decidable
  equality on the key type plus an arbitrary hash function `hc : K → Nat`.
* Go `for` loops are fuel-indexed recursions.  The fuel bounds are exact at
  every call site that the claims exercise: `findEntry` strips one set bit
  of a 32-bit word per iteration (33 units suffice), `findEmptySlot` probes
  each slot at most once (`Size` units), `findNearestItem` walks at most
  `BucketSize` slots backwards, and the displacement loop of
  `shiftEmptySlotTo` strictly decreases the distance of the empty slot to
  the home on every iteration in well-formed states (`Size` units).  On
  states where the Go loop would not terminate (unreachable under the table
  invariant), fuel exhaustion reports insertion failure.
-/

set_option linter.unusedSectionVars false

namespace Hopmap

/-- The helper `mod` from map.go: Go `%` truncates towards zero (`Int.tmod`);
a negative remainder is shifted into `[0, m)` by adding `m`. -/
def gomod (n m : Int) : Int :=
  let res := Int.tmod n m
  if res < 0 then res + m else res

/-- Floor base-2 logarithm, computed with structural fuel so that the
kernel can evaluate it; 32 units are exact for every `uint32` value (it
agrees with `Nat.log2` on arguments below `2 ^ fuel`). -/
def log2u : Nat → Nat → Nat
  | 0, _ => 0
  | fuel + 1, n => if n ≥ 2 then log2u fuel (n / 2) + 1 else 0

/-- `bits.LeadingZeros32` on a `uint32` value. -/
def clz32 (x : Nat) : Nat :=
  if x = 0 then 32 else 31 - log2u 32 x

/-- The constant `allBitSet = 0xFFFFFFFF` from map.go. -/
def allBitSet : Nat := 0xFFFFFFFF

/-- The `Config` struct of map.go. -/
structure Config where
  Size : Nat
  BucketSize : Nat
  AutoResize : Bool
deriving DecidableEq

/-- `DefaultConfig` from map.go. -/
def DefaultConfig : Config :=
  { Size := 1 <<< 16, BucketSize := 32, AutoResize := true }

/-- The `Map` struct of map.go.  A slot of `entries` holds `none` for a Go
nil pointer and `some (k, v)` for a pointer to `entry{key: k, value: v}`. -/
structure Map (K V : Type) where
  config : Config
  entries : List (Option (K × V))
  neighbors : List Nat
  n : Int
deriving DecidableEq

variable {K V : Type} [DecidableEq K] [Inhabited V]

/-- `New` from map.go: `c.Size` empty slots and `c.Size` zero bitmaps. -/
def New (c : Config) : Map K V :=
  { config := c
    entries := List.replicate c.Size none
    neighbors := List.replicate c.Size 0
    n := 0 }

/-- The key stored at slot `i`, if any (`entries[i].key`). -/
def keyAt (entries : List (Option (K × V))) (i : Nat) : Option K :=
  (entries.getD i none).map Prod.fst

/-- The value stored at slot `i` (`entries[i].value`); Go would dereference a
nil pointer on an empty slot, which the table invariant rules out at every
use site, so the empty case produces the zero value. -/
def valueAt (entries : List (Option (K × V))) (i : Nat) : V :=
  ((entries.getD i none).map Prod.snd).getD default

variable (hc : K → Nat)

/-- `hashKey` from map.go: `key.HashCode() % m.config.Size`. -/
def hashKey (S : Nat) (key : K) : Nat :=
  hc key % S

/-- `nextHash` from map.go: `uint32(mod(int(hash+1), int(m.config.Size)))`. -/
def nextHash (S : Nat) (hash : Nat) : Nat :=
  (gomod ((hash : Int) + 1) (S : Int)).toNat

/-- The scan loop of `findEntry` from map.go.  `nb` is the remaining bitmap
word, `i` the slot of its current leading set bit; each iteration compares
the key at `i`, then shifts the leading bit away and advances `i` to the
slot of the next set bit.  Each iteration removes one of the at most 32 set
bits, so 33 units of fuel are never exhausted for a `uint32` word. -/
def findEntryAux (S : Nat) (entries : List (Option (K × V))) (key : K) :
    Nat → Nat → Nat → Int
  | 0, _, _ => -1
  | fuel + 1, nb, i =>
    if nb = 0 then -1
    else if keyAt entries i = some key then (i : Int)
    else
      let zeros := clz32 nb
      let nb2 := (nb <<< (zeros + 1)) % 2 ^ 32
      let zeros2 := clz32 nb2
      findEntryAux S entries key fuel nb2
        ((gomod ((i : Int) + ((zeros2 : Int) + 1)) (S : Int)).toNat)

/-- `findEntry` from map.go. -/
def findEntry (m : Map K V) (hash : Nat) (key : K) : Int :=
  let neighbors := m.neighbors.getD hash 0
  let zeros := clz32 neighbors
  findEntryAux m.config.Size m.entries key 33 neighbors
    ((gomod ((hash : Int) + (zeros : Int)) (m.config.Size : Int)).toNat)

/-- `Get` from map.go. -/
def Get (m : Map K V) (key : K) : V × Bool :=
  let hash := hashKey hc m.config.Size key
  let e := findEntry m hash key
  if 0 ≤ e then (valueAt m.entries e.toNat, true)
  else (default, false)

/-- The probe loop of `findEmptySlot` from map.go: linear probing from
`nextHash startHash`, stopping at the first nil slot or when the scan wraps
back to `startHash`.  The scan visits each slot at most once, so `S` units
of fuel are never exhausted. -/
def findEmptySlotAux (S : Nat) (entries : List (Option (K × V)))
    (startHash : Nat) : Nat → Nat → Int
  | 0, _ => -1
  | fuel + 1, hash =>
    if hash = startHash then -1
    else if (entries.getD hash none).isNone then (hash : Int)
    else findEmptySlotAux S entries startHash fuel (nextHash S hash)

/-- `findEmptySlot` from map.go. -/
def findEmptySlot (m : Map K V) (startHash : Nat) : Int :=
  if (m.entries.getD startHash none).isNone then (startHash : Int)
  else
    findEmptySlotAux m.config.Size m.entries startHash m.config.Size
      (nextHash m.config.Size startHash)

/-- `clearNeighbor` from map.go: `m.neighbors[entry] ^= 1 << (31 - neighbor)`. -/
def clearNeighbor (ns : List Nat) (e neighbor : Nat) : List Nat :=
  ns.set e (ns.getD e 0 ^^^ (1 <<< (31 - neighbor)))

/-- `setNeighbor` from map.go: `m.neighbors[entry] |= 1 << (31 - neighbor)`. -/
def setNeighbor (ns : List Nat) (e neighbor : Nat) : List Nat :=
  ns.set e (ns.getD e 0 ||| (1 <<< (31 - neighbor)))

/-- The backward scan loop of `findNearestItem` from map.go.  `k` is the
candidate home slot, walking backward from `j - 1`; the loop runs while
`maxDist = mod (j - k) Size < BucketSize`.  At every call site
`Size > BucketSize` holds (the displacement loop is only entered when the
empty slot is at least `BucketSize` away from the home, and distances are
reduced `mod Size`), so the scan stops after at most `BucketSize` probes
and `BucketSize` units of fuel are never exhausted. -/
def findNearestItemAux (S B : Nat) (j : Nat) :
    Nat → List Nat → Nat → List Nat × Int
  | 0, ns, _ => (ns, -1)
  | fuel + 1, ns, k =>
    let maxDist := (gomod ((j : Int) - (k : Int)) (S : Int)).toNat
    if maxDist < B then
      let dist := clz32 (ns.getD k 0)
      if dist ≤ maxDist then
        (setNeighbor (clearNeighbor ns k dist) k maxDist,
          gomod ((k : Int) + (dist : Int)) (S : Int))
      else
        findNearestItemAux S B j fuel ns
          ((gomod ((k : Int) - 1) (S : Int)).toNat)
    else (ns, -1)

/-- `findNearestItem` from map.go (bitmap updates included, as in the
source; the entry move itself happens in `reshift`). -/
def findNearestItem (S B : Nat) (ns : List Nat) (j : Nat) : List Nat × Int :=
  findNearestItemAux S B j B ns ((gomod ((j : Int) - 1) (S : Int)).toNat)

/-- `reshift` from map.go: `m.entries[j] = m.entries[k]; m.entries[k] = nil`
when an item to displace was found. -/
def reshift (S B : Nat) (entries : List (Option (K × V))) (ns : List Nat)
    (j : Nat) : List (Option (K × V)) × List Nat × Int :=
  let p := findNearestItem S B ns j
  if 0 ≤ p.2 then
    ((entries.set j (entries.getD p.2.toNat none)).set p.2.toNat none, p.1, p.2)
  else (entries, p.1, p.2)

/-- The displacement loop of `shiftEmptySlotTo` from map.go: while the empty
slot `j` is at least `BucketSize` away from the home `i`, displace the
nearest eligible item into `j` and continue with the freed slot.  In
well-formed states each iteration strictly decreases `mod (j - i) Size`,
which starts below `Size`, so `Size` units of fuel are never exhausted;
exhaustion (possible only in states the table invariant excludes, where the
Go loop would not terminate) reports failure. -/
def shiftEmptySlotToAux (S B i : Nat) :
    Nat → List (Option (K × V)) → List Nat → Nat →
      List (Option (K × V)) × List Nat × Int × Int
  | 0, entries, ns, j =>
    let dist := gomod ((j : Int) - (i : Int)) (S : Int)
    if dist ≥ (B : Int) then (entries, ns, -1, dist)
    else (entries, ns, (j : Int), dist)
  | fuel + 1, entries, ns, j =>
    let dist := gomod ((j : Int) - (i : Int)) (S : Int)
    if dist ≥ (B : Int) then
      let r := reshift S B entries ns j
      if r.2.2 < 0 then (r.1, r.2.1, r.2.2, dist)
      else shiftEmptySlotToAux S B i fuel r.1 r.2.1 r.2.2.toNat
    else (entries, ns, (j : Int), dist)

/-- `shiftEmptySlotTo` from map.go. -/
def shiftEmptySlotTo (m : Map K V) (i j : Nat) :
    List (Option (K × V)) × List Nat × Int × Int :=
  shiftEmptySlotToAux m.config.Size m.config.BucketSize i m.config.Size
    m.entries m.neighbors j

/-- `Put` from map.go. -/
def Put (m : Map K V) (key : K) (value : V) : Map K V × Bool :=
  let hash := hashKey hc m.config.Size key
  let e := findEntry m hash key
  if 0 ≤ e then
    ({ m with
        entries := m.entries.set e.toNat
          ((m.entries.getD e.toNat none).map (fun p => (p.1, value))) },
      true)
  else
    let emptySlot := findEmptySlot m hash
    if emptySlot < 0 ∨ m.neighbors.getD emptySlot.toNat 0 = allBitSet then
      (m, false)
    else
      let r := shiftEmptySlotTo m hash emptySlot.toNat
      let j := r.2.2.1
      let dist := r.2.2.2
      if j < 0 then ({ m with entries := r.1, neighbors := r.2.1 }, false)
      else
        ({ m with
            entries := r.1.set j.toNat (some (key, value)),
            neighbors := r.2.1.set hash
              (r.2.1.getD hash 0 ||| (1 <<< (31 - dist.toNat))),
            n := m.n + 1 },
          true)

/-- `Delete` from map.go (the net effect of `resetEntry` followed by
`m.entries[e] = nil` on the functional state is an empty slot). -/
def Delete (m : Map K V) (key : K) : Map K V × V × Bool :=
  let hash := hashKey hc m.config.Size key
  let e := findEntry m hash key
  if 0 ≤ e then
    ({ m with
        neighbors := clearNeighbor m.neighbors hash
          ((gomod (e - (hash : Int)) (m.config.Size : Int)).toNat),
        entries := m.entries.set e.toNat none,
        n := m.n - 1 },
      valueAt m.entries e.toNat, true)
  else (m, default, false)

/-- `Len` from map.go. -/
def Len (m : Map K V) : Int := m.n

/-- `Size` from map.go. -/
def Size (m : Map K V) : Int := (m.config.Size : Int)

/-- `Load` from map.go; `float64` division is modelled as exact rational
division. -/
def Load (m : Map K V) : Rat := (Len m : Rat) / (Size m : Rat)

/-- Flip only the `AutoResize` configuration flag of a table. -/
def setAuto (m : Map K V) (b : Bool) : Map K V :=
  { m with config := { m.config with AutoResize := b } }

/-! The earlier variant of map.go (src/unnamed/part_000): its `Config` has no
`AutoResize` flag, its `Map` carries a separate `size` field initialised to
`c.Size` by `New`, and every method reads `m.size` instead of
`m.config.Size`.  The loop bodies are character-for-character the same as in
map.go, so the variant's methods call the same loop functions, passing
`m.size` for the capacity. -/

/-- The `Config` struct of the part_000 variant (no `AutoResize`). -/
structure Config0 where
  Size : Nat
  BucketSize : Nat
deriving DecidableEq

/-- The `Map` struct of the part_000 variant, with its separate `size`
field. -/
structure Map0 (K V : Type) where
  config : Config0
  entries : List (Option (K × V))
  neighbors : List Nat
  size : Nat
  n : Int
deriving DecidableEq

/-- `New` from the part_000 variant. -/
def New0 (c : Config0) : Map0 K V :=
  { config := c
    entries := List.replicate c.Size none
    neighbors := List.replicate c.Size 0
    size := c.Size
    n := 0 }

/-- `findEntry` from the part_000 variant (identical loop, capacity read
from `m.size`). -/
def findEntry0 (m : Map0 K V) (hash : Nat) (key : K) : Int :=
  let neighbors := m.neighbors.getD hash 0
  let zeros := clz32 neighbors
  findEntryAux m.size m.entries key 33 neighbors
    ((gomod ((hash : Int) + (zeros : Int)) (m.size : Int)).toNat)

/-- `Get` from the part_000 variant. -/
def Get0 (m : Map0 K V) (key : K) : V × Bool :=
  let hash := hashKey hc m.size key
  let e := findEntry0 m hash key
  if 0 ≤ e then (valueAt m.entries e.toNat, true)
  else (default, false)

/-- `findEmptySlot` from the part_000 variant. -/
def findEmptySlot0 (m : Map0 K V) (startHash : Nat) : Int :=
  if (m.entries.getD startHash none).isNone then (startHash : Int)
  else
    findEmptySlotAux m.size m.entries startHash m.size
      (nextHash m.size startHash)

/-- `shiftEmptySlotTo` from the part_000 variant. -/
def shiftEmptySlotTo0 (m : Map0 K V) (i j : Nat) :
    List (Option (K × V)) × List Nat × Int × Int :=
  shiftEmptySlotToAux m.size m.config.BucketSize i m.size
    m.entries m.neighbors j

/-- `Put` from the part_000 variant. -/
def Put0 (m : Map0 K V) (key : K) (value : V) : Map0 K V × Bool :=
  let hash := hashKey hc m.size key
  let e := findEntry0 m hash key
  if 0 ≤ e then
    ({ m with
        entries := m.entries.set e.toNat
          ((m.entries.getD e.toNat none).map (fun p => (p.1, value))) },
      true)
  else
    let emptySlot := findEmptySlot0 m hash
    if emptySlot < 0 ∨ m.neighbors.getD emptySlot.toNat 0 = allBitSet then
      (m, false)
    else
      let r := shiftEmptySlotTo0 m hash emptySlot.toNat
      let j := r.2.2.1
      let dist := r.2.2.2
      if j < 0 then ({ m with entries := r.1, neighbors := r.2.1 }, false)
      else
        ({ m with
            entries := r.1.set j.toNat (some (key, value)),
            neighbors := r.2.1.set hash
              (r.2.1.getD hash 0 ||| (1 <<< (31 - dist.toNat))),
            n := m.n + 1 },
          true)

/-- `Delete` from the part_000 variant. -/
def Delete0 (m : Map0 K V) (key : K) : Map0 K V × V × Bool :=
  let hash := hashKey hc m.size key
  let e := findEntry0 m hash key
  if 0 ≤ e then
    ({ m with
        neighbors := clearNeighbor m.neighbors hash
          ((gomod (e - (hash : Int)) (m.size : Int)).toNat),
        entries := m.entries.set e.toNat none,
        n := m.n - 1 },
      valueAt m.entries e.toNat, true)
  else (m, default, false)

/-- `Len` from the part_000 variant. -/
def Len0 (m : Map0 K V) : Int := m.n

/-- `Size` from the part_000 variant. -/
def Size0 (m : Map0 K V) : Int := (m.size : Int)

/-- `Load` from the part_000 variant. -/
def Load0 (m : Map0 K V) : Rat := (Len0 m : Rat) / (Size0 m : Rat)

/-- The field-for-field correspondence between a map.go table and a part_000
table: same capacity, bucket size, slots, bitmaps and counter (the
`AutoResize` flag has no counterpart). -/
def toMap0 (m : Map K V) : Map0 K V :=
  { config := { Size := m.config.Size, BucketSize := m.config.BucketSize }
    entries := m.entries
    neighbors := m.neighbors
    size := m.config.Size
    n := m.n }

/-! Operation sequences and the table invariant. -/

/-- A mutating operation on the table. -/
inductive Op (K V : Type) where
  | put : K → V → Op K V
  | delete : K → Op K V
deriving DecidableEq

/-- Apply one operation to the table, keeping the resulting state. -/
def applyOp (m : Map K V) : Op K V → Map K V
  | .put k v => (Put hc m k v).1
  | .delete k => (Delete hc m k).1

/-- Run a sequence of operations from a given state. -/
def runOps (m : Map K V) (ops : List (Op K V)) : Map K V :=
  ops.foldl (applyOp hc) m

/-- Whether an operation addresses key `k`. -/
def touchesKey (k : K) : Op K V → Prop
  | .put q _ => q = k
  | .delete q => q = k

/-- Construction-time contract of the spec: positive capacity and a
neighborhood not exceeding the 32-bit bitmap width. -/
def ValidConfig (c : Config) : Prop :=
  0 < c.Size ∧ c.BucketSize ≤ 32

/-- A table state reachable from a fresh, validly configured table by `Put`
and `Delete` operations. -/
def Reachable (m : Map K V) : Prop :=
  ∃ c ops, ValidConfig c ∧ m = runOps hc (New c) ops

/-- Key `k` is stored with value `v` in some slot of the table. -/
def MapsTo (m : Map K V) (k : K) (v : V) : Prop :=
  ∃ s, s < m.config.Size ∧ m.entries.getD s none = some (k, v)

/-- Forward hop distance from home `h` to slot `s` in a table of capacity
`S` (wraparound included); both arguments are below `S`. -/
def hopDist (S h s : Nat) : Nat := (s + S - h) % S

/-- The well-formedness invariant of the hopscotch table.
`occ`: every occupied slot lies fewer than `BucketSize` forward hops from
its key's home and the bit for that offset is set in the home's bitmap.
`bitmap`: every set bit of a home's bitmap denotes an in-range offset to a
slot occupied by an entry of that very home.
`uniq`: no key is stored twice.
`count`: the entry counter equals the number of occupied slots. -/
structure WF (m : Map K V) : Prop where
  size_pos : 0 < m.config.Size
  bucket_le : m.config.BucketSize ≤ 32
  entries_len : m.entries.length = m.config.Size
  neighbors_len : m.neighbors.length = m.config.Size
  nb_lt : ∀ h, m.neighbors.getD h 0 < 2 ^ 32
  occ : ∀ s k v, s < m.config.Size → m.entries.getD s none = some (k, v) →
    hopDist m.config.Size (hashKey hc m.config.Size k) s < m.config.BucketSize ∧
    (m.neighbors.getD (hashKey hc m.config.Size k) 0).testBit
      (31 - hopDist m.config.Size (hashKey hc m.config.Size k) s)
  bitmap : ∀ h b, h < m.config.Size → b ≤ 31 →
    (m.neighbors.getD h 0).testBit (31 - b) →
    b < m.config.BucketSize ∧ b < m.config.Size ∧
    ∃ k v, m.entries.getD ((h + b) % m.config.Size) none = some (k, v) ∧
      hashKey hc m.config.Size k = h
  uniq : ∀ s t k v w, s < m.config.Size → t < m.config.Size →
    m.entries.getD s none = some (k, v) → m.entries.getD t none = some (k, w) →
    s = t
  count : m.n = (m.entries.countP (fun o => o.isSome) : Int)

/-- Key `k` is stored with value `v` in a slot of the bare slot array
(capacity `S`); `MapsTo` is this predicate applied to a table's fields. -/
def HasKV (S : Nat) (entries : List (Option (K × V))) (k : K) (v : V) : Prop :=
  ∃ s, s < S ∧ entries.getD s none = some (k, v)

/-- The well-formedness invariant on the bare slot and bitmap arrays,
threaded through the displacement loop (which never touches the entry
counter). The clauses are those of `WF` without the counter clause. -/
structure CoreWF (S B : Nat) (entries : List (Option (K × V))) (ns : List Nat) : Prop where
  size_pos : 0 < S
  bucket_le : B ≤ 32
  entries_len : entries.length = S
  neighbors_len : ns.length = S
  nb_lt : ∀ h, ns.getD h 0 < 2 ^ 32
  occ : ∀ s k v, s < S → entries.getD s none = some (k, v) →
    hopDist S (hashKey hc S k) s < B ∧
    (ns.getD (hashKey hc S k) 0).testBit (31 - hopDist S (hashKey hc S k) s)
  bitmap : ∀ h b, h < S → b ≤ 31 →
    (ns.getD h 0).testBit (31 - b) →
    b < B ∧ b < S ∧
    ∃ k v, entries.getD ((h + b) % S) none = some (k, v) ∧ hashKey hc S k = h
  uniq : ∀ s t k v w, s < S → t < S →
    entries.getD s none = some (k, v) → entries.getD t none = some (k, w) →
    s = t

/-- Number of set bits of a 32-bit word. -/
def popcount32 (x : Nat) : Nat :=
  ((Finset.range 32).filter (fun p => x.testBit p)).card

/-- Key-comparison counter for the scan loop of `findEntry`: it recurses
exactly as `findEntryAux` does and adds one for every slot examined (each
iteration of the Go loop performs exactly one key comparison). -/
def findEntryProbesAux (S : Nat) (entries : List (Option (K × V))) (key : K) :
    Nat → Nat → Nat → Nat
  | 0, _, _ => 0
  | fuel + 1, nb, i =>
    if nb = 0 then 0
    else if keyAt entries i = some key then 1
    else
      let zeros := clz32 nb
      let nb2 := (nb <<< (zeros + 1)) % 2 ^ 32
      let zeros2 := clz32 nb2
      1 + findEntryProbesAux S entries key fuel nb2
        ((gomod ((i : Int) + ((zeros2 : Int) + 1)) (S : Int)).toNat)

/-- Number of slots examined (= key comparisons performed) by `findEntry`. -/
def findEntryProbes (m : Map K V) (hash : Nat) (key : K) : Nat :=
  let neighbors := m.neighbors.getD hash 0
  let zeros := clz32 neighbors
  findEntryProbesAux m.config.Size m.entries key 33 neighbors
    ((gomod ((hash : Int) + (zeros : Int)) (m.config.Size : Int)).toNat)

/-! Arithmetic helpers: the Go signed modulus and hop distances. -/

theorem tmod_eq_self {x S : Int} (h1 : -S < x) (h2 : x < S) : x.tmod S = x := by
  rcases le_or_lt 0 x with hx | hx
  · exact Int.tmod_eq_of_lt hx h2
  · have hneg : (-x).tdiv S = 0 :=
      Int.tdiv_eq_zero_of_lt (by omega) (by omega)
    have : x.tdiv S = 0 := by
      have := Int.neg_tdiv x S
      omega
    rw [Int.tmod_def, this, mul_zero, sub_zero]

theorem gomod_natCast (a S : Nat) : gomod (a : Int) (S : Int) = ((a % S : Nat) : Int) := by
  have htm : (a : Int).tmod (S : Int) = ((a % S : Nat) : Int) := (Int.ofNat_tmod a S).symm
  have hn : ¬ ((a % S : Nat) : Int) < 0 := by
    have := Int.natCast_nonneg (a % S)
    omega
  unfold gomod
  simp only [htm, if_neg hn]

theorem gomod_natCast_toNat (a S : Nat) :
    (gomod (a : Int) (S : Int)).toNat = a % S := by
  rw [gomod_natCast]; exact Int.toNat_natCast _

/-- Characterisation of `a % S` for `a < 2 * S`. -/
theorem mod_two_mul (a S : Nat) (h : a < 2 * S) :
    a % S = if a < S then a else a - S := by
  split
  · exact Nat.mod_eq_of_lt (by assumption)
  · have h1 : a - S < S := by omega
    have h2 : a % S = (a - S) % S := by
      conv_lhs => rw [show a = (a - S) + S by omega]
      simp [Nat.add_mod_right]
    rw [h2, Nat.mod_eq_of_lt h1]

theorem gomod_sub (a b S : Nat) (ha : a < S) (hb : b < S) :
    gomod ((a : Int) - (b : Int)) (S : Int) = ((a + S - b) % S : Nat) := by
  have htm : ((a : Int) - b).tmod S = (a : Int) - b :=
    tmod_eq_self (by omega) (by omega)
  unfold gomod
  simp only [htm]
  rw [mod_two_mul _ _ (by omega)]
  split <;> split <;> omega

theorem gomod_sub_toNat (a b S : Nat) (ha : a < S) (hb : b < S) :
    (gomod ((a : Int) - (b : Int)) (S : Int)).toNat = hopDist S b a := by
  rw [gomod_sub a b S ha hb, Int.toNat_natCast, hopDist]

theorem hopDist_lt (S h s : Nat) (hS : 0 < S) : hopDist S h s < S :=
  Nat.mod_lt _ hS

theorem hopDist_self_slot (S h b : Nat) (hh : h < S) (hb : b < S) :
    hopDist S h ((h + b) % S) = b := by
  unfold hopDist
  rw [mod_two_mul (h + b) S (by omega)]
  split
  · rw [mod_two_mul _ _ (by omega)]; split <;> omega
  · rw [mod_two_mul _ _ (by omega)]; split <;> omega

theorem slot_of_hopDist (S h s : Nat) (hh : h < S) (hs : s < S) :
    (h + hopDist S h s) % S = s := by
  unfold hopDist
  rw [mod_two_mul (s + S - h) S (by omega)]
  split
  · rw [mod_two_mul _ _ (by omega)]; split <;> omega
  · rw [mod_two_mul _ _ (by omega)]; split <;> omega

theorem hopDist_inj (S h s t : Nat) (hh : h < S) (hs : s < S) (ht : t < S)
    (heq : hopDist S h s = hopDist S h t) : s = t := by
  have h1 := slot_of_hopDist S h s hh hs
  have h2 := slot_of_hopDist S h t hh ht
  rw [heq] at h1; omega

/-! Bit-level helpers: the leading-zero count and single-bit updates. -/

theorem nat_testBit_log2 (x : Nat) (hx : x ≠ 0) : x.testBit x.log2 = true := by
  have h1 : 2 ^ x.log2 ≤ x := Nat.log2_self_le hx
  have h2 : x < 2 ^ (x.log2 + 1) := Nat.lt_log2_self
  rw [Nat.testBit_to_div_mod]
  have hdiv : x / 2 ^ x.log2 = 1 := by
    have hlow : 1 ≤ x / 2 ^ x.log2 :=
      (Nat.le_div_iff_mul_le (Nat.two_pow_pos _)).2 (by omega)
    have hhigh : x / 2 ^ x.log2 < 2 :=
      (Nat.div_lt_iff_lt_mul (Nat.two_pow_pos _)).2 (by rw [pow_succ] at h2; omega)
    omega
  simp [hdiv]

theorem log2u_eq_log2 : ∀ (fuel x : Nat), x < 2 ^ fuel → log2u fuel x = Nat.log2 x := by
  intro fuel
  induction fuel with
  | zero =>
    intro x hx
    interval_cases x
    rw [Nat.log2_zero]
    rfl
  | succ fuel ih =>
    intro x hx
    by_cases h2 : x ≥ 2
    · have hdiv : x / 2 < 2 ^ fuel := by
        rw [Nat.div_lt_iff_lt_mul (by omega)]
        rw [pow_succ] at hx
        omega
      have hlog : Nat.log2 x = Nat.log2 (x / 2) + 1 := by
        conv_lhs => rw [Nat.log2]
        simp [h2]
      rw [log2u, if_pos h2, ih (x / 2) hdiv, hlog]
    · have hlog : Nat.log2 x = 0 := by
        conv_lhs => rw [Nat.log2]
        simp [h2]
      rw [log2u, if_neg h2, hlog]

theorem clz32_zero : clz32 0 = 32 := rfl

theorem clz32_le_31 (x : Nat) (hx : x ≠ 0) : clz32 x ≤ 31 := by
  unfold clz32
  simp [hx]

theorem log2_le_31 (x : Nat) (hx : x < 2 ^ 32) (hx0 : x ≠ 0) : x.log2 ≤ 31 := by
  have := (Nat.log2_lt hx0).2 hx
  omega

theorem clz32_eq (x : Nat) (hx : x < 2 ^ 32) (hx0 : x ≠ 0) : clz32 x = 31 - x.log2 := by
  unfold clz32
  rw [log2u_eq_log2 32 x hx]
  simp [hx0]

/-- The leading set bit: offset `clz32 x` from the most-significant bit. -/
theorem testBit_clz32 (x : Nat) (hx : x < 2 ^ 32) (hx0 : x ≠ 0) :
    x.testBit (31 - clz32 x) = true := by
  rw [clz32_eq x hx hx0]
  have hlog := log2_le_31 x hx hx0
  have : 31 - (31 - x.log2) = x.log2 := by omega
  rw [this]
  exact nat_testBit_log2 x hx0

/-- Offsets before the leading set bit are clear. -/
theorem testBit_before_clz32 (x : Nat) (hx : x < 2 ^ 32) (b : Nat)
    (hb : b < clz32 x) : x.testBit (31 - b) = false := by
  by_cases hx0 : x = 0
  · subst hx0; simp [Nat.zero_testBit]
  · rw [clz32_eq x hx hx0] at hb
    have hlog := log2_le_31 x hx hx0
    apply Nat.testBit_lt_two_pow
    calc x < 2 ^ (x.log2 + 1) := Nat.lt_log2_self
    _ ≤ 2 ^ (31 - b) := Nat.pow_le_pow_right (by omega) (by omega)

/-- A set bit at offset `b` forces `clz32 x ≤ b`. -/
theorem clz32_le_of_testBit (x : Nat) (hx : x < 2 ^ 32) (b : Nat)
    (hset : x.testBit (31 - b) = true) : clz32 x ≤ b := by
  by_contra hlt
  rw [testBit_before_clz32 x hx b (by omega)] at hset
  exact Bool.false_ne_true hset

theorem testBit_ge_32 (x : Nat) (hx : x < 2 ^ 32) (p : Nat) (hp : 32 ≤ p) :
    x.testBit p = false :=
  Nat.testBit_lt_two_pow (lt_of_lt_of_le hx (Nat.pow_le_pow_right (by omega) hp))

theorem one_shiftLeft_lt (p : Nat) (hp : p < 32) : 1 <<< p < 2 ^ 32 := by
  rw [Nat.shiftLeft_eq, one_mul]
  exact Nat.pow_lt_pow_right (by omega) hp

theorem testBit_one_shiftLeft (p q : Nat) :
    (1 <<< p).testBit q = decide (p = q) := by
  rw [Nat.shiftLeft_eq, one_mul, Nat.testBit_two_pow]

/-! List helpers. -/

theorem List.getD_set_my {α : Type} (l : List α) (i j : Nat) (a d : α) :
    (l.set i a).getD j d = if i = j ∧ i < l.length then a else l.getD j d := by
  rw [List.getD_eq_getElem?_getD, List.getD_eq_getElem?_getD, List.getElem?_set]
  by_cases hij : i = j
  · subst hij
    by_cases hlen : i < l.length
    · simp [hlen]
    · simp [hlen, List.getElem?_eq_none (le_of_not_lt hlen)]
  · simp [hij]

theorem List.getD_replicate_my {α : Type} (n i : Nat) (a d : α) :
    (List.replicate n a).getD i d = if i < n then a else d := by
  rw [List.getD_eq_getElem?_getD, List.getElem?_replicate]
  split <;> rfl

/-! Popcount lemmas: each iteration of the `findEntry` scan strips exactly
one set bit from the bitmap word. -/

theorem popcount32_le (x : Nat) : popcount32 x ≤ 32 := by
  unfold popcount32
  calc ((Finset.range 32).filter (fun p => x.testBit p)).card
      ≤ (Finset.range 32).card := Finset.card_filter_le _ _
  _ = 32 := Finset.card_range 32

theorem popcount32_pos (x : Nat) (hx : x < 2 ^ 32) (hx0 : x ≠ 0) :
    1 ≤ popcount32 x := by
  unfold popcount32
  have hmem : x.log2 ∈ (Finset.range 32).filter (fun p => x.testBit p) := by
    rw [Finset.mem_filter, Finset.mem_range]
    exact ⟨by have := log2_le_31 x hx hx0; omega, nat_testBit_log2 x hx0⟩
  exact Finset.card_pos.2 ⟨_, hmem⟩

theorem shiftLeft_mod_two_pow (x s : Nat) (hs : s ≤ 32) :
    (x <<< s) % 2 ^ 32 = (x % 2 ^ (32 - s)) * 2 ^ s := by
  rw [Nat.shiftLeft_eq]
  have h32 : (2 : Nat) ^ 32 = 2 ^ (32 - s) * 2 ^ s := by
    rw [← pow_add]
    congr 1
    omega
  rw [h32, Nat.mul_mod_mul_right]

theorem popcount32_mul_two_pow (t s : Nat) (hs : s ≤ 32) (ht : t < 2 ^ (32 - s)) :
    popcount32 (t * 2 ^ s) = popcount32 t := by
  unfold popcount32
  apply Finset.card_bij (fun p _ => p - s)
  · intro p hp
    rw [Finset.mem_filter, Finset.mem_range] at hp ⊢
    obtain ⟨hp32, hbit⟩ := hp
    rw [← Nat.shiftLeft_eq, Nat.testBit_shiftLeft] at hbit
    have hge : p ≥ s := by
      by_contra hlt
      simp [hlt] at hbit
    simp [hge] at hbit
    exact ⟨by omega, hbit⟩
  · intro p1 hp1 p2 hp2 heq
    rw [Finset.mem_filter, Finset.mem_range] at hp1 hp2
    obtain ⟨-, hbit1⟩ := hp1
    obtain ⟨-, hbit2⟩ := hp2
    rw [← Nat.shiftLeft_eq, Nat.testBit_shiftLeft] at hbit1 hbit2
    have hge1 : p1 ≥ s := by by_contra hlt; simp [hlt] at hbit1
    have hge2 : p2 ≥ s := by by_contra hlt; simp [hlt] at hbit2
    omega
  · intro q hq
    rw [Finset.mem_filter, Finset.mem_range] at hq
    obtain ⟨hq32, hbit⟩ := hq
    have hqlt : q < 32 - s := by
      have hge := Nat.testBit_implies_ge hbit
      have : (2 : Nat) ^ q < 2 ^ (32 - s) := lt_of_le_of_lt hge ht
      exact (Nat.pow_lt_pow_iff_right (by omega)).1 this
    refine ⟨q + s, ?_, by omega⟩
    rw [Finset.mem_filter, Finset.mem_range]
    constructor
    · omega
    · rw [← Nat.shiftLeft_eq, Nat.testBit_shiftLeft]
      simp [show q + s ≥ s by omega, hbit]

theorem popcount32_split (x : Nat) (hx : x < 2 ^ 32) (hx0 : x ≠ 0) :
    popcount32 x = popcount32 (x % 2 ^ x.log2) + 1 := by
  unfold popcount32
  have hset :
      (Finset.range 32).filter (fun p => x.testBit p) =
        insert x.log2 ((Finset.range 32).filter (fun p => (x % 2 ^ x.log2).testBit p)) := by
    ext p
    rw [Finset.mem_insert, Finset.mem_filter, Finset.mem_filter, Finset.mem_range]
    constructor
    · rintro ⟨hp32, hbit⟩
      by_cases hpl : p = x.log2
      · exact Or.inl hpl
      · refine Or.inr ⟨hp32, ?_⟩
        have hplt : p < x.log2 := by
          rcases Nat.lt_or_ge p x.log2 with h | h
          · exact h
          · exfalso
            have hgt : x.log2 < p := by omega
            have : x.testBit p = false := by
              apply Nat.testBit_lt_two_pow
              calc x < 2 ^ (x.log2 + 1) := Nat.lt_log2_self
              _ ≤ 2 ^ p := Nat.pow_le_pow_right (by omega) (by omega)
            rw [this] at hbit
            exact Bool.false_ne_true hbit
        rw [Nat.testBit_mod_two_pow]
        simp [hplt, hbit]
    · rintro (hpl | ⟨hp32, hbit⟩)
      · subst hpl
        exact ⟨by have := log2_le_31 x hx hx0; omega, nat_testBit_log2 x hx0⟩
      · rw [Nat.testBit_mod_two_pow] at hbit
        simp only [Bool.and_eq_true, decide_eq_true_eq] at hbit
        exact ⟨hp32, hbit.2⟩
  rw [hset, Finset.card_insert_of_not_mem]
  rw [Finset.mem_filter]
  rintro ⟨-, hbit⟩
  rw [Nat.testBit_mod_two_pow] at hbit
  simp at hbit

/-- The shifted bitmap word of the next `findEntry` iteration has exactly
one set bit fewer. -/
theorem popcount32_shift_step (nb : Nat) (hnb : nb < 2 ^ 32) (hnb0 : nb ≠ 0) :
    popcount32 ((nb <<< (clz32 nb + 1)) % 2 ^ 32) + 1 = popcount32 nb := by
  have hlog := log2_le_31 nb hnb hnb0
  have hz : clz32 nb = 31 - nb.log2 := clz32_eq nb hnb hnb0
  have hs : clz32 nb + 1 ≤ 32 := by omega
  have hside : 32 - (clz32 nb + 1) = nb.log2 := by omega
  rw [shiftLeft_mod_two_pow nb _ hs, hside,
    popcount32_mul_two_pow _ _ hs (by rw [hside]; exact Nat.mod_lt _ (Nat.two_pow_pos _))]
  rw [popcount32_split nb hnb hnb0]

/-! Lemmas about the `findEntry` scan. -/

theorem gomod_advance_toNat (a b S : Nat) :
    (gomod ((a : Int) + ((b : Int) + 1)) (S : Int)).toNat = (a + b + 1) % S := by
  have hcast : (a : Int) + ((b : Int) + 1) = ((a + b + 1 : Nat) : Int) := by push_cast; ring
  rw [hcast, gomod_natCast_toNat]

/-- Soundness of the scan: a non-negative result is an in-range slot whose
stored key is the searched key. -/
theorem findEntryAux_sound (S : Nat) (entries : List (Option (K × V))) (key : K)
    (hS : 0 < S) :
    ∀ fuel nb i, i < S → 0 ≤ findEntryAux S entries key fuel nb i →
      (findEntryAux S entries key fuel nb i).toNat < S ∧
      keyAt entries (findEntryAux S entries key fuel nb i).toNat = some key := by
  intro fuel
  induction fuel with
  | zero =>
    intro nb i hi hge
    simp [findEntryAux] at hge
  | succ fuel ih =>
    intro nb i hi hge
    by_cases h0 : nb = 0
    · simp [findEntryAux, h0] at hge
    · by_cases hk : keyAt entries i = some key
      · simp only [findEntryAux, if_neg h0, if_pos hk] at hge ⊢
        rw [Int.toNat_natCast]
        exact ⟨hi, hk⟩
      · simp only [findEntryAux, if_neg h0, if_neg hk] at hge ⊢
        exact ih _ _ (by rw [gomod_advance_toNat]; exact Nat.mod_lt _ hS) hge

/-- Completeness of the scan: on a miss, no set bit of the bitmap word
points at a slot storing the searched key.  Bit position `p` of the current
word corresponds to the slot `(31 - p) - clz32 nb` steps ahead of the slot
`i` of the current leading bit. -/
theorem findEntryAux_complete (S : Nat) (entries : List (Option (K × V))) (key : K)
    (hS : 0 < S) :
    ∀ fuel nb i, nb < 2 ^ 32 → popcount32 nb < fuel → i < S →
      findEntryAux S entries key fuel nb i < 0 →
      ∀ p, p ≤ 31 → nb.testBit p = true →
        keyAt entries ((i + ((31 - p) - clz32 nb)) % S) ≠ some key := by
  intro fuel
  induction fuel with
  | zero =>
    intro nb i hnb hfuel hi hm
    omega
  | succ fuel ih =>
    intro nb i hnb hfuel hi hm p hp hbit
    by_cases h0 : nb = 0
    · rw [h0, Nat.zero_testBit] at hbit
      exact absurd hbit (Bool.false_ne_true)
    · by_cases hk : keyAt entries i = some key
      · simp only [findEntryAux, if_neg h0, if_pos hk] at hm
        omega
      · simp only [findEntryAux, if_neg h0, if_neg hk] at hm
        have hz31 : clz32 nb ≤ 31 := clz32_le_31 nb h0
        by_cases hpl : p = 31 - clz32 nb
        · have hzero : (31 - p) - clz32 nb = 0 := by omega
          rw [hzero, Nat.add_zero, Nat.mod_eq_of_lt hi]
          exact hk
        · have hplt : p < 31 - clz32 nb := by
            rcases Nat.lt_or_ge p (31 - clz32 nb) with h | h
            · exact h
            · exfalso
              have : nb.testBit p = false := by
                have hoffset : 31 - p < clz32 nb := by omega
                have := testBit_before_clz32 nb hnb (31 - p) hoffset
                rwa [show 31 - (31 - p) = p by omega] at this
              rw [this] at hbit
              exact Bool.false_ne_true hbit
          set z := clz32 nb with hzdef
          set nb2 := (nb <<< (z + 1)) % 2 ^ 32 with hnb2def
          have hnb2lt : nb2 < 2 ^ 32 := Nat.mod_lt _ (Nat.two_pow_pos _)
          have hpc : popcount32 nb2 + 1 = popcount32 nb := popcount32_shift_step nb hnb h0
          have hbit2 : nb2.testBit (p + (z + 1)) = true := by
            rw [hnb2def, Nat.testBit_mod_two_pow, Nat.testBit_shiftLeft]
            simp only [Bool.and_eq_true, decide_eq_true_eq]
            refine ⟨by omega, by omega, ?_⟩
            rwa [Nat.add_sub_cancel]
          have hz2 : clz32 nb2 ≤ 31 - (p + (z + 1)) := by
            apply clz32_le_of_testBit nb2 hnb2lt
            rw [show 31 - (31 - (p + (z + 1))) = p + (z + 1) by omega]
            exact hbit2
          have hih := ih nb2 ((i + clz32 nb2 + 1) % S) hnb2lt (by omega)
            (Nat.mod_lt _ hS) (by rwa [gomod_advance_toNat] at hm)
            (p + (z + 1)) (by omega) hbit2
          have hslot :
              ((i + clz32 nb2 + 1) % S + ((31 - (p + (z + 1))) - clz32 nb2)) % S =
                (i + ((31 - p) - z)) % S := by
            rw [Nat.mod_add_mod]
            congr 1
            omega
          rwa [hslot] at hih

/-- The scan performs at most one key comparison per set bit of the bitmap
word. -/
theorem findEntryProbesAux_le (S : Nat) (entries : List (Option (K × V))) (key : K) :
    ∀ fuel nb i, nb < 2 ^ 32 →
      findEntryProbesAux S entries key fuel nb i ≤ popcount32 nb := by
  intro fuel
  induction fuel with
  | zero =>
    intro nb i hnb
    simp [findEntryProbesAux]
  | succ fuel ih =>
    intro nb i hnb
    by_cases h0 : nb = 0
    · simp [findEntryProbesAux, h0]
    · by_cases hk : keyAt entries i = some key
      · simp only [findEntryProbesAux, if_neg h0, if_pos hk]
        exact popcount32_pos nb hnb h0
      · simp only [findEntryProbesAux, if_neg h0, if_neg hk]
        have hpc : popcount32 ((nb <<< (clz32 nb + 1)) % 2 ^ 32) + 1 = popcount32 nb :=
          popcount32_shift_step nb hnb h0
        have := ih ((nb <<< (clz32 nb + 1)) % 2 ^ 32)
          ((gomod ((i : Int) + ((clz32 ((nb <<< (clz32 nb + 1)) % 2 ^ 32) : Int) + 1))
            (S : Int)).toNat) (Nat.mod_lt _ (Nat.two_pow_pos _))
        omega

/-- A `keyAt` hit exposes the stored pair. -/
theorem keyAt_some (entries : List (Option (K × V))) (i : Nat) (key : K)
    (h : keyAt entries i = some key) : ∃ w, entries.getD i none = some (key, w) := by
  unfold keyAt at h
  rcases hopt : entries.getD i none with _ | p
  · rw [hopt] at h
    simp at h
  · rcases p with ⟨k0, w⟩
    rw [hopt] at h
    simp at h
    refine ⟨w, ?_⟩
    rw [h]

/-- In a well-formed table, `findEntry` returns exactly the slot storing the
searched key. -/
theorem findEntry_eq_slot (m : Map K V) (hwf : WF hc m) (key : K) (v : V) (s : Nat)
    (hs : s < m.config.Size) (hkv : m.entries.getD s none = some (key, v)) :
    findEntry m (hashKey hc m.config.Size key) key = (s : Int) := by
  obtain ⟨hS, hB, hel, hnl, hnb, hocc, hbm, huq, hcnt⟩ := hwf
  set S := m.config.Size
  set h := hashKey hc S key with hdef
  set nb0 := m.neighbors.getD h 0 with hnb0def
  obtain ⟨hdlt, hdbit⟩ := hocc s key v hs hkv
  set d := hopDist S h s with hddef
  have hd31 : d ≤ 31 := by omega
  have hzle : clz32 nb0 ≤ d := by
    apply clz32_le_of_testBit nb0 (hnb h) d
    exact hdbit
  have hkey : keyAt m.entries s = some key := by
    rw [keyAt, hkv]
    rfl
  have hge : 0 ≤ findEntry m h key := by
    by_contra hlt
    push_neg at hlt
    have hcomp := findEntryAux_complete S m.entries key hS 33 nb0
      ((gomod ((h : Int) + ((clz32 nb0 : Int))) (S : Int)).toNat)
      (hnb h) (by have := popcount32_le nb0; omega)
      (by
        have hcast : (h : Int) + ((clz32 nb0 : Int)) = (((h + clz32 nb0 : Nat)) : Int) := by
          push_cast; ring
        rw [hcast, gomod_natCast_toNat]
        exact Nat.mod_lt _ hS)
      (by
        rw [findEntry] at hlt
        exact hlt)
      (31 - d) (by omega) hdbit
    apply hcomp
    have hi0 : ((gomod ((h : Int) + ((clz32 nb0 : Int))) (S : Int)).toNat) =
        (h + clz32 nb0) % S := by
      have hcast : (h : Int) + ((clz32 nb0 : Int)) = (((h + clz32 nb0 : Nat)) : Int) := by
        push_cast; ring
      rw [hcast, gomod_natCast_toNat]
    rw [hi0, Nat.mod_add_mod, show 31 - (31 - d) = d by omega]
    have hslot : (h + clz32 nb0 + (d - clz32 nb0)) % S = s := by
      rw [show h + clz32 nb0 + (d - clz32 nb0) = h + d by omega]
      have hh : h < S := Nat.mod_lt _ hS
      exact slot_of_hopDist S h s hh hs
    rw [hslot]
    exact hkey
  have hsound := findEntryAux_sound S m.entries key hS 33 nb0
    ((gomod ((h : Int) + ((clz32 nb0 : Int))) (S : Int)).toNat)
    (by
      have hcast : (h : Int) + ((clz32 nb0 : Int)) = (((h + clz32 nb0 : Nat)) : Int) := by
        push_cast; ring
      rw [hcast, gomod_natCast_toNat]
      exact Nat.mod_lt _ hS)
    (by rw [findEntry] at hge; exact hge)
  rw [show findEntryAux S m.entries key 33 nb0
      ((gomod ((h : Int) + ((clz32 nb0 : Int))) (S : Int)).toNat) = findEntry m h key from rfl]
    at hsound
  obtain ⟨hlt2, hkey2⟩ := hsound
  obtain ⟨w, hw⟩ := keyAt_some m.entries (findEntry m h key).toNat key hkey2
  have := huq (findEntry m h key).toNat s key w v hlt2 hs hw hkv
  omega

/-- In a well-formed table, a negative `findEntry` result means the key is
absent. -/
theorem not_mapsTo_of_findEntry_neg (m : Map K V) (hwf : WF hc m) (key : K)
    (hneg : findEntry m (hashKey hc m.config.Size key) key < 0) :
    ∀ v, ¬ MapsTo m key v := by
  rintro v ⟨s, hs, hkv⟩
  rw [findEntry_eq_slot hc m hwf key v s hs hkv] at hneg
  omega

/-- `Get` on a present key returns the stored value and `true`. -/
theorem Get_eq_of_mapsTo (m : Map K V) (hwf : WF hc m) (key : K) (v : V)
    (hmt : MapsTo m key v) : Get hc m key = (v, true) := by
  obtain ⟨s, hs, hkv⟩ := hmt
  rw [Get, findEntry_eq_slot hc m hwf key v s hs hkv]
  rw [if_pos (by omega)]
  rw [Int.toNat_natCast, valueAt, hkv]
  rfl

/-- `Get` on an absent key returns the zero value and `false`. -/
theorem Get_eq_of_absent (m : Map K V) (hwf : WF hc m) (key : K)
    (habs : ∀ v, ¬ MapsTo m key v) : Get hc m key = (default, false) := by
  rw [Get]
  rw [if_neg]
  intro hge
  have hsound := findEntryAux_sound m.config.Size m.entries key hwf.size_pos 33
    (m.neighbors.getD (hashKey hc m.config.Size key) 0)
    ((gomod ((hashKey hc m.config.Size key : Int) +
      ((clz32 (m.neighbors.getD (hashKey hc m.config.Size key) 0) : Int)))
      (m.config.Size : Int)).toNat)
    (by
      have hcast : ((hashKey hc m.config.Size key : Nat) : Int) +
          ((clz32 (m.neighbors.getD (hashKey hc m.config.Size key) 0) : Int)) =
          (((hashKey hc m.config.Size key +
            clz32 (m.neighbors.getD (hashKey hc m.config.Size key) 0) : Nat)) : Int) := by
        push_cast; ring
      rw [hcast, gomod_natCast_toNat]
      exact Nat.mod_lt _ hwf.size_pos)
    (by rw [findEntry] at hge; exact hge)
  rw [show findEntryAux m.config.Size m.entries key 33
      (m.neighbors.getD (hashKey hc m.config.Size key) 0)
      ((gomod ((hashKey hc m.config.Size key : Int) +
        ((clz32 (m.neighbors.getD (hashKey hc m.config.Size key) 0) : Int)))
        (m.config.Size : Int)).toNat) =
      findEntry m (hashKey hc m.config.Size key) key from rfl] at hsound
  obtain ⟨hlt2, hkey2⟩ := hsound
  obtain ⟨w, hw⟩ := keyAt_some m.entries
    (findEntry m (hashKey hc m.config.Size key) key).toNat key hkey2
  exact habs w ⟨_, hlt2, hw⟩

/-! Lemmas about `findEmptySlot`, fresh tables and `Delete`. -/

theorem nextHash_eq (S h : Nat) : nextHash S h = (h + 1) % S := by
  rw [nextHash]
  have hcast : (h : Int) + 1 = ((h + 1 : Nat) : Int) := by push_cast; ring
  rw [hcast, gomod_natCast_toNat]

theorem findEmptySlotAux_spec (S : Nat) (entries : List (Option (K × V)))
    (startHash : Nat) (hS : 0 < S) :
    ∀ fuel h, h < S → 0 ≤ findEmptySlotAux S entries startHash fuel h →
      (findEmptySlotAux S entries startHash fuel h).toNat < S ∧
      entries.getD (findEmptySlotAux S entries startHash fuel h).toNat none = none := by
  intro fuel
  induction fuel with
  | zero =>
    intro h hh hge
    simp [findEmptySlotAux] at hge
  | succ fuel ih =>
    intro h hh hge
    by_cases hstart : h = startHash
    · simp [findEmptySlotAux, hstart] at hge
    · by_cases hempty : (entries.getD h none).isNone
      · simp only [findEmptySlotAux, if_neg hstart, if_pos hempty] at hge ⊢
        rw [Int.toNat_natCast]
        exact ⟨hh, Option.isNone_iff_eq_none.1 hempty⟩
      · simp only [findEmptySlotAux, if_neg hstart, if_neg hempty] at hge ⊢
        exact ih (nextHash S h) (by rw [nextHash_eq]; exact Nat.mod_lt _ hS) hge

/-- A non-negative `findEmptySlot` result is an in-range empty slot. -/
theorem findEmptySlot_spec (m : Map K V) (startHash : Nat) (hS : 0 < m.config.Size)
    (hstart : startHash < m.config.Size) (hge : 0 ≤ findEmptySlot m startHash) :
    (findEmptySlot m startHash).toNat < m.config.Size ∧
    m.entries.getD (findEmptySlot m startHash).toNat none = none := by
  by_cases hempty : (m.entries.getD startHash none).isNone
  · rw [findEmptySlot, if_pos hempty, Int.toNat_natCast]
    exact ⟨hstart, Option.isNone_iff_eq_none.1 hempty⟩
  · rw [findEmptySlot, if_neg hempty]
    rw [findEmptySlot, if_neg hempty] at hge
    exact findEmptySlotAux_spec m.config.Size m.entries startHash hS m.config.Size
      (nextHash m.config.Size startHash)
      (by rw [nextHash_eq]; exact Nat.mod_lt _ hS) hge

/-- A fresh, validly configured table is well-formed. -/
theorem WF_new (c : Config) (hvc : ValidConfig c) : WF hc (New (K := K) (V := V) c) := by
  obtain ⟨hS, hB⟩ := hvc
  refine ⟨hS, hB, List.length_replicate _ _, List.length_replicate _ _, ?_, ?_, ?_, ?_, ?_⟩
  · intro h
    simp only [New, List.getD_replicate_my, ite_self]
    exact Nat.two_pow_pos 32
  · intro s k v hs hkv
    simp [New, List.getD_replicate_my] at hkv
  · intro h b hh hb hbit
    simp [New, List.getD_replicate_my, Nat.zero_testBit] at hbit
  · intro s t k v w hs ht hkv hkw
    simp [New, List.getD_replicate_my] at hkv
  · simp only [New]
    rw [List.countP_eq_zero.2]
    · rfl
    · intro a ha
      rw [List.eq_of_mem_replicate ha]
      simp

theorem getD_some_getElem {α : Type} (l : List (Option α)) (s : Nat) (x : α)
    (hs : s < l.length) (h : l.getD s none = some x) : l[s] = some x := by
  rw [List.getD_eq_getElem l none hs] at h
  exact h

theorem countP_isSome_set_none (l : List (Option (K × V))) (s : Nat) (x : K × V)
    (hs : s < l.length) (h : l.getD s none = some x) :
    (l.set s none).countP (fun o => o.isSome) + 1 = l.countP (fun o => o.isSome) := by
  have hget := getD_some_getElem l s x hs h
  have hpos : 0 < l.countP (fun o => o.isSome) :=
    List.countP_pos_iff.mpr ⟨some x, by rw [← hget]; exact List.getElem_mem hs, rfl⟩
  rw [List.countP_set _ _ _ _ hs, hget]
  simp only [Option.isSome_some, Option.isSome_none, if_true]
  simp only [Bool.false_eq_true, if_false]
  omega

/-- `Delete` of a present key: the exact state transition of the source. -/
theorem Delete_present_eq (m : Map K V) (hwf : WF hc m) (key : K) (v : V) (s : Nat)
    (hs : s < m.config.Size) (hkv : m.entries.getD s none = some (key, v)) :
    Delete hc m key =
      ({ m with
          neighbors := clearNeighbor m.neighbors (hashKey hc m.config.Size key)
            (hopDist m.config.Size (hashKey hc m.config.Size key) s),
          entries := m.entries.set s none,
          n := m.n - 1 }, v, true) := by
  have hfe := findEntry_eq_slot hc m hwf key v s hs hkv
  have hh : hashKey hc m.config.Size key < m.config.Size := Nat.mod_lt _ hwf.size_pos
  rw [Delete]
  simp only [hfe]
  rw [if_pos (by positivity)]
  rw [Int.toNat_natCast]
  have hmod : (gomod ((s : Int) - ((hashKey hc m.config.Size key : Nat) : Int))
      (m.config.Size : Int)).toNat = hopDist m.config.Size (hashKey hc m.config.Size key) s :=
    gomod_sub_toNat s (hashKey hc m.config.Size key) m.config.Size hs hh
  rw [hmod, valueAt, hkv]
  rfl

/-- Deleting a present key preserves well-formedness. -/
theorem WF_delete (m : Map K V) (hwf : WF hc m) (key : K) (v : V) (s : Nat)
    (hs : s < m.config.Size) (hkv : m.entries.getD s none = some (key, v)) :
    WF hc ({ m with
        neighbors := clearNeighbor m.neighbors (hashKey hc m.config.Size key)
          (hopDist m.config.Size (hashKey hc m.config.Size key) s),
        entries := m.entries.set s none,
        n := m.n - 1 } : Map K V) := by
  obtain ⟨hS, hB, hel, hnl, hnb, hocc, hbm, huq, hcnt⟩ := hwf
  have hh : hashKey hc m.config.Size key < m.config.Size := Nat.mod_lt _ hS
  obtain ⟨hdB, hdbit⟩ := hocc s key v hs hkv
  have hd31 : hopDist m.config.Size (hashKey hc m.config.Size key) s ≤ 31 := by omega
  have hslot : (hashKey hc m.config.Size key + hopDist m.config.Size (hashKey hc m.config.Size key) s) % m.config.Size = s :=
    slot_of_hopDist m.config.Size (hashKey hc m.config.Size key) s hh hs
  have hnb2 : ∀ x, (clearNeighbor m.neighbors (hashKey hc m.config.Size key) (hopDist m.config.Size (hashKey hc m.config.Size key) s)).getD x 0 =
      if x = hashKey hc m.config.Size key then
        m.neighbors.getD (hashKey hc m.config.Size key) 0 ^^^ (1 <<< (31 - (hopDist m.config.Size (hashKey hc m.config.Size key) s)))
      else m.neighbors.getD x 0 := by
    intro x
    rw [clearNeighbor, List.getD_set_my]
    by_cases hx : x = hashKey hc m.config.Size key
    · subst hx
      rw [if_pos ⟨rfl, by rw [hnl]; exact hh⟩, if_pos rfl]
    · rw [if_neg (fun hand => hx hand.1.symm), if_neg hx]
  have htb : ∀ b, b ≤ 31 →
      ((m.neighbors.getD (hashKey hc m.config.Size key) 0 ^^^ (1 <<< (31 - (hopDist m.config.Size (hashKey hc m.config.Size key) s)))).testBit (31 - b)) =
        if b = hopDist m.config.Size (hashKey hc m.config.Size key) s then ! (m.neighbors.getD (hashKey hc m.config.Size key) 0).testBit (31 - b)
        else (m.neighbors.getD (hashKey hc m.config.Size key) 0).testBit (31 - b) := by
    intro b hb
    rw [Nat.testBit_xor, testBit_one_shiftLeft]
    by_cases hbd : b = hopDist m.config.Size (hashKey hc m.config.Size key) s
    · subst hbd
      simp
    · have hne : ¬ (31 - (hopDist m.config.Size (hashKey hc m.config.Size key) s) = 31 - b) := by omega
      simp [hbd, hne]
  have hent2 : ∀ t, (m.entries.set s none).getD t none =
      if t = s then none else m.entries.getD t none := by
    intro t
    rw [List.getD_set_my]
    by_cases ht : t = s
    · subst ht
      rw [if_pos ⟨rfl, by rw [hel]; exact hs⟩, if_pos rfl]
    · rw [if_neg (fun hand => ht hand.1.symm), if_neg ht]
  refine ⟨hS, hB, ?_, ?_, ?_, ?_, ?_, ?_, ?_⟩
  · simpa [List.length_set] using hel
  · simpa [clearNeighbor, List.length_set] using hnl
  · intro x
    simp only
    rw [hnb2]
    split
    · exact Nat.xor_lt_two_pow (hnb _) (one_shiftLeft_lt _ (by omega))
    · exact hnb x
  · intro t k2 v2 ht hkv2
    simp only at ht hkv2 ⊢
    rw [hent2] at hkv2
    by_cases hts : t = s
    · rw [if_pos hts] at hkv2
      exact absurd hkv2 (by simp)
    · rw [if_neg hts] at hkv2
      obtain ⟨hd2B, hd2bit⟩ := hocc t k2 v2 ht hkv2
      refine ⟨hd2B, ?_⟩
      rw [hnb2]
      by_cases hhh : hashKey hc m.config.Size k2 = hashKey hc m.config.Size key
      · rw [if_pos hhh]
        rw [htb (hopDist m.config.Size (hashKey hc m.config.Size k2) t) (by omega)]
        have hne : hopDist m.config.Size (hashKey hc m.config.Size k2) t ≠ hopDist m.config.Size (hashKey hc m.config.Size key) s := by
          intro heq
          have hts2 := slot_of_hopDist m.config.Size (hashKey hc m.config.Size k2) t
            (by rw [hhh]; exact hh) ht
          rw [heq, hhh] at hts2
          rw [hslot] at hts2
          exact hts hts2.symm
        rw [if_neg hne, ← hhh]
        exact hd2bit
      · rw [if_neg hhh]
        exact hd2bit
  · intro x b hx hb hbit2
    simp only at hbit2 ⊢
    rw [hnb2] at hbit2
    have hold : (m.neighbors.getD x 0).testBit (31 - b) = true ∧
        ¬ (x = hashKey hc m.config.Size key ∧ b = hopDist m.config.Size (hashKey hc m.config.Size key) s) := by
      by_cases hxh : x = hashKey hc m.config.Size key
      · rw [if_pos hxh] at hbit2
        rw [htb _ hb] at hbit2
        by_cases hbd : b = hopDist m.config.Size (hashKey hc m.config.Size key) s
        · rw [if_pos hbd] at hbit2
          rw [hbd] at hbit2
          rw [hdbit] at hbit2
          exact absurd hbit2 (by simp)
        · rw [if_neg hbd] at hbit2
          rw [← hxh] at hbit2
          exact ⟨hbit2, fun hand => hbd hand.2⟩
      · rw [if_neg hxh] at hbit2
        exact ⟨hbit2, fun hand => hxh hand.1⟩
    obtain ⟨hbitold, hnot⟩ := hold
    obtain ⟨hbB, hbS, k2, v2, hkv2, hhome⟩ := hbm x b hx hb hbitold
    refine ⟨hbB, hbS, k2, v2, ?_, hhome⟩
    rw [hent2, if_neg]
    · exact hkv2
    · intro heq
      rw [heq] at hkv2
      rw [hkv] at hkv2
      have hpair := Option.some_inj.1 hkv2
      have hkey2 : k2 = key := (congrArg Prod.fst hpair).symm
      apply hnot
      rw [hkey2] at hhome
      refine ⟨by rw [← hhome], ?_⟩
      have hbd2 : hopDist m.config.Size x ((x + b) % m.config.Size) = b := hopDist_self_slot m.config.Size x b hx hbS
      rw [heq] at hbd2
      rw [show x = hashKey hc m.config.Size key by rw [← hhome]] at hbd2
      omega
  · intro t u k2 v2 w2 ht hu hkv2 hkw2
    simp only at hkv2 hkw2
    rw [hent2] at hkv2 hkw2
    by_cases hts : t = s
    · rw [if_pos hts] at hkv2
      exact absurd hkv2 (by simp)
    · by_cases hus : u = s
      · rw [if_pos hus] at hkw2
        exact absurd hkw2 (by simp)
      · rw [if_neg hts] at hkv2
        rw [if_neg hus] at hkw2
        exact huq t u k2 v2 w2 ht hu hkv2 hkw2
  · simp only
    have := countP_isSome_set_none m.entries s (key, v) (by omega) hkv
    omega

/-- After deleting `key`, `key` is absent. -/
theorem not_mapsTo_delete (m : Map K V) (hwf : WF hc m) (key : K) (v : V) (s : Nat)
    (hs : s < m.config.Size) (hkv : m.entries.getD s none = some (key, v)) :
    ∀ w, ¬ MapsTo ({ m with
        neighbors := clearNeighbor m.neighbors (hashKey hc m.config.Size key)
          (hopDist m.config.Size (hashKey hc m.config.Size key) s),
        entries := m.entries.set s none,
        n := m.n - 1 } : Map K V) key w := by
  rintro w ⟨t, ht, hkw⟩
  simp only at ht hkw
  rw [List.getD_set_my] at hkw
  by_cases hts : s = t ∧ s < m.entries.length
  · rw [if_pos hts] at hkw
    exact absurd hkw (by simp)
  · rw [if_neg hts] at hkw
    have hts' : t ≠ s := by
      intro heq
      exact hts ⟨heq.symm, by have := hwf.entries_len; omega⟩
    exact hts' (hwf.uniq t s key w v ht hs hkw hkv)

/-- Deleting `key` does not affect other keys. -/
theorem mapsTo_delete_other (m : Map K V) (hwf : WF hc m) (key : K) (v : V) (s : Nat)
    (hs : s < m.config.Size) (hkv : m.entries.getD s none = some (key, v))
    (k' : K) (hne : k' ≠ key) (w : V) :
    MapsTo ({ m with
        neighbors := clearNeighbor m.neighbors (hashKey hc m.config.Size key)
          (hopDist m.config.Size (hashKey hc m.config.Size key) s),
        entries := m.entries.set s none,
        n := m.n - 1 } : Map K V) k' w ↔ MapsTo m k' w := by
  constructor
  · rintro ⟨t, ht, hkw⟩
    simp only at ht hkw
    rw [List.getD_set_my] at hkw
    by_cases hts : s = t ∧ s < m.entries.length
    · rw [if_pos hts] at hkw
      exact absurd hkw (by simp)
    · rw [if_neg hts] at hkw
      exact ⟨t, ht, hkw⟩
  · rintro ⟨t, ht, hkw⟩
    refine ⟨t, ht, ?_⟩
    simp only
    rw [List.getD_set_my, if_neg]
    · exact hkw
    · rintro ⟨heq, -⟩
      subst heq
      rw [hkv] at hkw
      exact hne (congrArg Prod.fst (Option.some_inj.1 hkw)).symm

/-! The displacement machinery: `findNearestItem`, `reshift` and the loop of
`shiftEmptySlotTo` preserve the core invariant, keep the stored key-value
pairs intact, and move the empty slot strictly closer to the home. -/

theorem coreWF_of_WF (m : Map K V) (hwf : WF hc m) :
    CoreWF hc m.config.Size m.config.BucketSize m.entries m.neighbors := by
  obtain ⟨hS, hB, hel, hnl, hnb, hocc, hbm, huq, hcnt⟩ := hwf
  exact ⟨hS, hB, hel, hnl, hnb, hocc, hbm, huq⟩

theorem WF_of_coreWF (m : Map K V)
    (hcore : CoreWF hc m.config.Size m.config.BucketSize m.entries m.neighbors)
    (hcnt : m.n = (m.entries.countP (fun o => o.isSome) : Int)) : WF hc m := by
  obtain ⟨hS, hB, hel, hnl, hnb, hocc, hbm, huq⟩ := hcore
  exact ⟨hS, hB, hel, hnl, hnb, hocc, hbm, huq, hcnt⟩

theorem mapsTo_iff_hasKV (m : Map K V) (k : K) (v : V) :
    MapsTo m k v ↔ HasKV m.config.Size m.entries k v := Iff.rfl

theorem mod_core (a S : Nat) (hS : 0 < S) (h : a < 2 * S) :
    (a % S = a ∧ a < S) ∨ (a % S = a - S ∧ S ≤ a) := by
  rcases Nat.lt_or_ge a S with h1 | h1
  · exact Or.inl ⟨Nat.mod_eq_of_lt h1, h1⟩
  · right
    rw [mod_two_mul a S h, if_neg (by omega)]
    exact ⟨rfl, h1⟩

/-- Walking `u` hops back from `j` lands `u` closer to any home `i` that is
at least `u` hops behind `j`. -/
theorem hopDist_back (S i j r u : Nat) (hS : 0 < S) (hi : i < S) (hj : j < S)
    (hr : r < S) (hu : u < S) (hstep : (r + u) % S = j) (hle : u ≤ hopDist S i j) :
    hopDist S i r = hopDist S i j - u := by
  unfold hopDist at hle ⊢
  have h1 := mod_core (r + S - i) S hS (by omega)
  have h2 := mod_core (j + S - i) S hS (by omega)
  have h3 := mod_core (r + u) S hS (by omega)
  rcases h1 with ⟨e1, l1⟩ | ⟨e1, l1⟩ <;> rcases h2 with ⟨e2, l2⟩ | ⟨e2, l2⟩ <;>
    rcases h3 with ⟨e3, l3⟩ | ⟨e3, l3⟩ <;> omega

theorem neg_tmod_left (a b : Int) : (-a).tmod b = -(a.tmod b) := by
  rw [Int.tmod_def, Int.tmod_def, Int.neg_tdiv]
  ring

theorem gomod_bounds (x S : Int) (hS : 0 < S) : 0 ≤ gomod x S ∧ gomod x S < S := by
  unfold gomod
  rcases le_or_lt 0 x with hx | hx
  · have h1 := Int.tmod_nonneg S hx
    have h2 := Int.tmod_lt_of_pos x hS
    rw [if_neg (by omega)]
    exact ⟨h1, h2⟩
  · have hneg : x.tmod S = -((-x).tmod S) := by
      rw [neg_tmod_left, neg_neg]
    have h1 := Int.tmod_nonneg S (by omega : (0 : Int) ≤ -x)
    have h2 := Int.tmod_lt_of_pos (-x) hS
    rcases eq_or_lt_of_le h1 with hz | hpos
    · rw [if_neg (by omega)]
      omega
    · rw [if_pos (by omega)]
      omega

theorem gomod_toNat_lt (x : Int) (S : Nat) (hS : 0 < S) :
    (gomod x (S : Int)).toNat < S := by
  have := gomod_bounds x (S : Int) (by omega)
  omega

/-- Behaviour of the backward scan of `findNearestItem`: on failure the
bitmaps are untouched; on success it has picked a home `kk` within the
window, cleared the bit of that home's nearest entry and set the bit for
offset `hopDist S kk j`, returning that entry's slot. -/
theorem findNearestItemAux_spec (S B j : Nat) (hS : 0 < S) (hj : j < S) :
    ∀ fuel ns k, k < S →
      ((findNearestItemAux S B j fuel ns k).2 < 0 →
        (findNearestItemAux S B j fuel ns k).1 = ns) ∧
      (0 ≤ (findNearestItemAux S B j fuel ns k).2 →
        ∃ kk, kk < S ∧ hopDist S kk j < B ∧
          clz32 (ns.getD kk 0) ≤ hopDist S kk j ∧
          findNearestItemAux S B j fuel ns k =
            (setNeighbor (clearNeighbor ns kk (clz32 (ns.getD kk 0))) kk (hopDist S kk j),
              (((kk + clz32 (ns.getD kk 0)) % S : Nat) : Int))) := by
  intro fuel
  induction fuel with
  | zero =>
    intro ns k hk
    constructor
    · intro _
      rfl
    · intro hge
      simp [findNearestItemAux] at hge
  | succ fuel ih =>
    intro ns k hk
    have hmax : (gomod ((j : Int) - (k : Int)) (S : Int)).toNat = hopDist S k j :=
      gomod_sub_toNat j k S hj hk
    by_cases hguard : (gomod ((j : Int) - (k : Int)) (S : Int)).toNat < B
    · by_cases hdist : clz32 (ns.getD k 0) ≤ (gomod ((j : Int) - (k : Int)) (S : Int)).toNat
      · have heq : findNearestItemAux S B j (fuel + 1) ns k =
            (setNeighbor (clearNeighbor ns k (clz32 (ns.getD k 0)))
                k ((gomod ((j : Int) - (k : Int)) (S : Int)).toNat),
              gomod ((k : Int) + ((clz32 (ns.getD k 0) : Nat) : Int)) (S : Int)) := by
          simp only [findNearestItemAux, if_pos hguard, if_pos hdist]
        have hret : gomod ((k : Int) + ((clz32 (ns.getD k 0) : Nat) : Int)) (S : Int) =
            (((k + clz32 (ns.getD k 0)) % S : Nat) : Int) := by
          have hcast : (k : Int) + ((clz32 (ns.getD k 0) : Nat) : Int) =
              (((k + clz32 (ns.getD k 0) : Nat)) : Int) := by push_cast; ring
          rw [hcast, gomod_natCast]
        have h2 : (findNearestItemAux S B j (fuel + 1) ns k).2 =
            (((k + clz32 (ns.getD k 0)) % S : Nat) : Int) := by
          rw [heq]
          exact hret
        constructor
        · intro hneg
          rw [h2] at hneg
          omega
        · intro _
          refine ⟨k, hk, by omega, by omega, ?_⟩
          rw [heq, hret, hmax]
      · have heq : findNearestItemAux S B j (fuel + 1) ns k =
            findNearestItemAux S B j fuel ns ((gomod ((k : Int) - 1) (S : Int)).toNat) := by
          simp only [findNearestItemAux, if_pos hguard, if_neg hdist]
        rw [heq]
        exact ih ns _ (gomod_toNat_lt _ S hS)
    · have heq : findNearestItemAux S B j (fuel + 1) ns k = (ns, -1) := by
        simp only [findNearestItemAux, if_neg hguard]
      rw [heq]
      constructor
      · intro _
        rfl
      · intro hge
        simp at hge

/-- Behaviour of `findNearestItem`: instantiation of the scan lemma at the
source's entry point. -/
theorem findNearestItem_spec (S B : Nat) (ns : List Nat) (j : Nat)
    (hS : 0 < S) (hj : j < S) :
    ((findNearestItem S B ns j).2 < 0 → (findNearestItem S B ns j).1 = ns) ∧
    (0 ≤ (findNearestItem S B ns j).2 →
      ∃ kk, kk < S ∧ hopDist S kk j < B ∧
        clz32 (ns.getD kk 0) ≤ hopDist S kk j ∧
        findNearestItem S B ns j =
          (setNeighbor (clearNeighbor ns kk (clz32 (ns.getD kk 0))) kk (hopDist S kk j),
            (((kk + clz32 (ns.getD kk 0)) % S : Nat) : Int))) := by
  rw [findNearestItem]
  exact findNearestItemAux_spec S B j hS hj B ns _ (gomod_toNat_lt _ S hS)

/-- Pointwise description of the bitmap array after the clear/set pair of
`findNearestItem`. -/
theorem setClear_getD (ns : List Nat) (kk d t : Nat) (hkk : kk < ns.length) :
    ∀ x, (setNeighbor (clearNeighbor ns kk d) kk t).getD x 0 =
      if x = kk then (ns.getD kk 0 ^^^ (1 <<< (31 - d))) ||| (1 <<< (31 - t))
      else ns.getD x 0 := by
  intro x
  have hlen1 : (clearNeighbor ns kk d).length = ns.length := by
    rw [clearNeighbor, List.length_set]
  have hinner : (clearNeighbor ns kk d).getD kk 0 = ns.getD kk 0 ^^^ (1 <<< (31 - d)) := by
    rw [clearNeighbor, List.getD_set_my, if_pos ⟨rfl, hkk⟩]
  rw [setNeighbor, List.getD_set_my, hlen1, hinner]
  by_cases hx : x = kk
  · subst hx
    rw [if_pos ⟨rfl, hkk⟩, if_pos rfl]
  · rw [if_neg (fun hand => hx hand.1.symm), if_neg hx]
    rw [clearNeighbor, List.getD_set_my, if_neg (fun hand => hx hand.1.symm)]

/-- Bit content of the updated word: offset `d` is cleared (it was the set
leading bit), offset `t` is set, all other offsets are untouched. -/
theorem setClear_testBit (w d t : Nat) (hd : d ≤ 31) (ht : t ≤ 31) (hdt : d ≠ t)
    (hlead : w.testBit (31 - d) = true) :
    ∀ b, b ≤ 31 →
      ((w ^^^ (1 <<< (31 - d))) ||| (1 <<< (31 - t))).testBit (31 - b) =
        if b = d then false else if b = t then true else w.testBit (31 - b) := by
  intro b hb
  rw [Nat.testBit_lor, Nat.testBit_xor, testBit_one_shiftLeft, testBit_one_shiftLeft]
  by_cases hbd : b = d
  · subst hbd
    rw [if_pos rfl]
    have hne : ¬ (31 - t = 31 - b) := by omega
    simp [hlead, hne]
  · rw [if_neg hbd]
    have hned : ¬ (31 - d = 31 - b) := by omega
    by_cases hbt : b = t
    · subst hbt
      simp [hned]
    · have hnet : ¬ (31 - t = 31 - b) := by omega
      rw [if_neg hbt]
      simp [hned, hnet]

/-- Pointwise description of the slot array after the move of `reshift`. -/
theorem moveEntry_getD (entries : List (Option (K × V))) (j rr : Nat)
    (hj : j < entries.length) (hrr : rr < entries.length) (hne : rr ≠ j) :
    ∀ x, ((entries.set j (entries.getD rr none)).set rr none).getD x none =
      if x = rr then none
      else if x = j then entries.getD rr none
      else entries.getD x none := by
  intro x
  rw [List.getD_set_my, List.getD_set_my, List.length_set]
  by_cases hxr : x = rr
  · subst hxr
    rw [if_pos ⟨rfl, hrr⟩, if_pos rfl]
  · rw [if_neg (fun hand => hxr hand.1.symm), if_neg hxr]
    by_cases hxj : x = j
    · subst hxj
      rw [if_pos ⟨rfl, hj⟩, if_pos rfl]
    · rw [if_neg (fun hand => hxj hand.1.symm), if_neg hxj]

/-- The single displacement step of the loop: on failure nothing changed; on
success the invariant still holds, the stored pairs and their count are
unchanged, and the freed slot sits `1 ≤ u < BucketSize` hops before `j`. -/
theorem reshift_spec (S B : Nat) (entries : List (Option (K × V))) (ns : List Nat)
    (j : Nat) (hcore : CoreWF hc S B entries ns) (hj : j < S)
    (hempty : entries.getD j none = none) :
    ((reshift S B entries ns j).2.2 < 0 →
      (reshift S B entries ns j).1 = entries ∧ (reshift S B entries ns j).2.1 = ns) ∧
    (0 ≤ (reshift S B entries ns j).2.2 →
      CoreWF hc S B (reshift S B entries ns j).1 (reshift S B entries ns j).2.1 ∧
      (reshift S B entries ns j).2.2.toNat < S ∧
      (reshift S B entries ns j).1.getD (reshift S B entries ns j).2.2.toNat none = none ∧
      (∃ u, 1 ≤ u ∧ u < B ∧ ((reshift S B entries ns j).2.2.toNat + u) % S = j) ∧
      (∀ k v, HasKV S (reshift S B entries ns j).1 k v ↔ HasKV S entries k v) ∧
      (reshift S B entries ns j).1.countP (fun o => o.isSome) =
        entries.countP (fun o => o.isSome)) := by
  obtain ⟨hS, hB, hel, hnl, hnb, hocc, hbm, huq⟩ := hcore
  obtain ⟨hfail, hsucc⟩ := findNearestItem_spec S B ns j hS hj
  rcases lt_or_le (findNearestItem S B ns j).2 0 with hneg | hge
  · have hns := hfail hneg
    have hres : reshift S B entries ns j =
        (entries, (findNearestItem S B ns j).1, (findNearestItem S B ns j).2) := by
      rw [reshift, if_neg (by omega)]
    constructor
    · intro _
      rw [hres, hns]
      exact ⟨rfl, rfl⟩
    · intro hge2
      rw [hres] at hge2
      simp only at hge2
      omega
  · obtain ⟨kk, hkk, htB, hdt, hfni⟩ := hsucc hge
    have hword : ns.getD kk 0 ≠ 0 := by
      intro h0
      rw [h0, clz32_zero] at hdt
      omega
    have hd31 : clz32 (ns.getD kk 0) ≤ 31 := clz32_le_31 _ hword
    have hlead : (ns.getD kk 0).testBit (31 - clz32 (ns.getD kk 0)) = true :=
      testBit_clz32 _ (hnb kk) hword
    obtain ⟨hdB, hdS, k0, v0, hk0, hhome0⟩ :=
      hbm kk (clz32 (ns.getD kk 0)) hkk hd31 hlead
    have hslotj : (kk + hopDist S kk j) % S = j := slot_of_hopDist S kk j hkk hj
    have hrrS : (kk + clz32 (ns.getD kk 0)) % S < S := Nat.mod_lt _ hS
    have hdoff : hopDist S kk ((kk + clz32 (ns.getD kk 0)) % S) = clz32 (ns.getD kk 0) :=
      hopDist_self_slot S kk _ hkk hdS
    have htoff : hopDist S kk j = hopDist S kk ((kk + hopDist S kk j) % S) := by
      rw [hopDist_self_slot S kk _ hkk (hopDist_lt S kk j hS)]
    have hdneqt : clz32 (ns.getD kk 0) ≠ hopDist S kk j := by
      intro heq
      rw [heq] at hk0
      rw [hslotj] at hk0
      rw [hempty] at hk0
      exact absurd hk0 (by simp)
    have hrrj : (kk + clz32 (ns.getD kk 0)) % S ≠ j := by
      intro heq
      apply hdneqt
      rw [← hdoff, heq]
    have hret2 : (findNearestItem S B ns j).2 =
        (((kk + clz32 (ns.getD kk 0)) % S : Nat) : Int) := by rw [hfni]
    have hret1 : (findNearestItem S B ns j).1 =
        setNeighbor (clearNeighbor ns kk (clz32 (ns.getD kk 0))) kk (hopDist S kk j) := by
      rw [hfni]
    have hres : reshift S B entries ns j =
        ((entries.set j (entries.getD ((kk + clz32 (ns.getD kk 0)) % S) none)).set
            ((kk + clz32 (ns.getD kk 0)) % S) none,
          setNeighbor (clearNeighbor ns kk (clz32 (ns.getD kk 0))) kk (hopDist S kk j),
          (((kk + clz32 (ns.getD kk 0)) % S : Nat) : Int)) := by
      rw [reshift, if_pos hge, hret1, hret2, Int.toNat_natCast]
    constructor
    · intro hneg2
      rw [hres] at hneg2
      simp only at hneg2
      omega
    · intro _
      have hnsnew := setClear_getD ns kk (clz32 (ns.getD kk 0)) (hopDist S kk j)
        (by rw [hnl]; exact hkk)
      have hbitnew := setClear_testBit (ns.getD kk 0) (clz32 (ns.getD kk 0))
        (hopDist S kk j) hd31 (by omega) hdneqt hlead
      have hentnew := moveEntry_getD entries j ((kk + clz32 (ns.getD kk 0)) % S)
        (by rw [hel]; exact hj) (by rw [hel]; exact hrrS) hrrj
      rw [hres]
      simp only
      rw [Int.toNat_natCast]
      refine ⟨?_, hrrS, ?_, ?_, ?_, ?_⟩
      · -- the core invariant for the updated arrays
        refine ⟨hS, hB, ?_, ?_, ?_, ?_, ?_, ?_⟩
        · rw [List.length_set, List.length_set]
          exact hel
        · rw [setNeighbor, clearNeighbor, List.length_set, List.length_set]
          exact hnl
        · intro x
          rw [hnsnew]
          split
          · apply Nat.or_lt_two_pow
            · exact Nat.xor_lt_two_pow (hnb kk) (one_shiftLeft_lt _ (by omega))
            · exact one_shiftLeft_lt _ (by omega)
          · exact hnb x
        · -- occupancy clause
          intro x k v hx hkv
          rw [hentnew] at hkv
          by_cases hxr : x = (kk + clz32 (ns.getD kk 0)) % S
          · rw [if_pos hxr] at hkv
            exact absurd hkv (by simp)
          · rw [if_neg hxr] at hkv
            by_cases hxj : x = j
            · rw [if_pos hxj] at hkv
              rw [hk0] at hkv
              have hkeq : k = k0 := (congrArg Prod.fst (Option.some_inj.1 hkv)).symm
              subst hxj
              rw [hkeq, hhome0]
              refine ⟨htB, ?_⟩
              rw [hnsnew, if_pos rfl, hbitnew _ (by omega), if_neg hdneqt.symm,
                if_pos rfl]
            · rw [if_neg hxj] at hkv
              obtain ⟨hxdB, hxbit⟩ := hocc x k v hx hkv
              refine ⟨hxdB, ?_⟩
              rw [hnsnew]
              by_cases hhk : hashKey hc S k = kk
              · rw [if_pos hhk]
                rw [hbitnew _ (by omega)]
                have hne1 : hopDist S (hashKey hc S k) x ≠ clz32 (ns.getD kk 0) := by
                  intro heq
                  apply hxr
                  have := slot_of_hopDist S (hashKey hc S k) x
                    (by rw [hhk]; exact hkk) hx
                  rw [heq, hhk] at this
                  omega
                have hne2 : hopDist S (hashKey hc S k) x ≠ hopDist S kk j := by
                  intro heq
                  apply hxj
                  have := slot_of_hopDist S (hashKey hc S k) x
                    (by rw [hhk]; exact hkk) hx
                  rw [heq, hhk, hslotj] at this
                  omega
                rw [if_neg hne1, if_neg hne2, ← hhk]
                exact hxbit
              · rw [if_neg hhk]
                exact hxbit
        · -- bitmap clause
          intro x b hx hb hbit
          rw [hnsnew] at hbit
          by_cases hxk : x = kk
          · rw [if_pos hxk] at hbit
            rw [hbitnew _ hb] at hbit
            by_cases hbd : b = clz32 (ns.getD kk 0)
            · rw [if_pos hbd] at hbit
              exact absurd hbit (by simp)
            · rw [if_neg hbd] at hbit
              by_cases hbt : b = hopDist S kk j
              · rw [hxk, hbt]
                refine ⟨htB, hopDist_lt S kk j hS, k0, v0, ?_, hhome0⟩
                rw [hslotj, hentnew, if_neg (fun heq => hrrj heq.symm), if_pos rfl]
                exact hk0
              · rw [if_neg hbt] at hbit
                obtain ⟨hbB, hbS, k1, v1, hk1, hhome1⟩ := hbm kk b hkk hb hbit
                rw [hxk]
                refine ⟨hbB, hbS, k1, v1, ?_, hhome1⟩
                have hner : (kk + b) % S ≠ (kk + clz32 (ns.getD kk 0)) % S := by
                  intro heq
                  apply hbd
                  have h1 := hopDist_self_slot S kk b hkk hbS
                  rw [heq, hdoff] at h1
                  omega
                have hnej : (kk + b) % S ≠ j := by
                  intro heq
                  apply hbt
                  have h1 := hopDist_self_slot S kk b hkk hbS
                  rw [heq] at h1
                  omega
                rw [hentnew, if_neg hner, if_neg hnej]
                exact hk1
          · rw [if_neg hxk] at hbit
            obtain ⟨hbB, hbS, k1, v1, hk1, hhome1⟩ := hbm x b hx hb hbit
            refine ⟨hbB, hbS, k1, v1, ?_, hhome1⟩
            rw [hentnew]
            rw [if_neg, if_neg]
            · exact hk1
            · intro heq
              rw [heq, hempty] at hk1
              exact absurd hk1 (by simp)
            · intro heq
              apply hxk
              rw [heq] at hk1
              rw [hk0] at hk1
              have hkeq : k1 = k0 := (congrArg Prod.fst (Option.some_inj.1 hk1)).symm
              rw [hkeq, hhome0] at hhome1
              omega
        · -- uniqueness clause
          intro x y k v w hx hy hkv hkw
          rw [hentnew] at hkv hkw
          by_cases hxr : x = (kk + clz32 (ns.getD kk 0)) % S
          · rw [if_pos hxr] at hkv
            exact absurd hkv (by simp)
          · rw [if_neg hxr] at hkv
            by_cases hyr : y = (kk + clz32 (ns.getD kk 0)) % S
            · rw [if_pos hyr] at hkw
              exact absurd hkw (by simp)
            · rw [if_neg hyr] at hkw
              by_cases hxj : x = j
              · by_cases hyj : y = j
                · rw [hxj, hyj]
                · exfalso
                  rw [if_pos hxj] at hkv
                  rw [if_neg hyj] at hkw
                  rw [hk0] at hkv
                  have hkeq : k = k0 := (congrArg Prod.fst (Option.some_inj.1 hkv)).symm
                  rw [hkeq] at hkw
                  exact hyr (huq y ((kk + clz32 (ns.getD kk 0)) % S) k0 w v0 hy hrrS hkw hk0)
              · by_cases hyj : y = j
                · exfalso
                  rw [if_neg hxj] at hkv
                  rw [if_pos hyj] at hkw
                  rw [hk0] at hkw
                  have hkeq : k = k0 := (congrArg Prod.fst (Option.some_inj.1 hkw)).symm
                  rw [hkeq] at hkv
                  exact hxr (huq x ((kk + clz32 (ns.getD kk 0)) % S) k0 v v0 hx hrrS hkv hk0)
                · rw [if_neg hxj] at hkv
                  rw [if_neg hyj] at hkw
                  exact huq x y k v w hx hy hkv hkw
      · -- the freed slot is empty
        rw [hentnew, if_pos rfl]
      · -- the freed slot sits 1 ≤ u < B hops before j
        refine ⟨hopDist S kk j - clz32 (ns.getD kk 0), ?_, by omega, ?_⟩
        · rcases Nat.lt_or_ge (clz32 (ns.getD kk 0)) (hopDist S kk j) with h | h
          · omega
          · omega
        · rw [Nat.mod_add_mod]
          rw [show kk + clz32 (ns.getD kk 0) + (hopDist S kk j - clz32 (ns.getD kk 0)) =
            kk + hopDist S kk j by omega]
          exact hslotj
      · -- the stored pairs are unchanged
        intro k v
        constructor
        · rintro ⟨x, hx, hkv⟩
          rw [hentnew] at hkv
          by_cases hxr : x = (kk + clz32 (ns.getD kk 0)) % S
          · rw [if_pos hxr] at hkv
            exact absurd hkv (by simp)
          · rw [if_neg hxr] at hkv
            by_cases hxj : x = j
            · rw [if_pos hxj] at hkv
              exact ⟨(kk + clz32 (ns.getD kk 0)) % S, hrrS, hkv⟩
            · rw [if_neg hxj] at hkv
              exact ⟨x, hx, hkv⟩
        · rintro ⟨x, hx, hkv⟩
          by_cases hxr : x = (kk + clz32 (ns.getD kk 0)) % S
          · refine ⟨j, hj, ?_⟩
            rw [hentnew, if_neg (fun heq => hrrj heq.symm), if_pos rfl, ← hxr]
            exact hkv
          · refine ⟨x, hx, ?_⟩
            rw [hentnew, if_neg hxr, if_neg]
            · exact hkv
            · intro heq
              rw [heq, hempty] at hkv
              exact absurd hkv (by simp)
      · -- the number of occupied slots is unchanged
        have hjel : j < entries.length := by rw [hel]; exact hj
        have hrrel : (kk + clz32 (ns.getD kk 0)) % S < entries.length := by
          rw [hel]; exact hrrS
        have hjget : entries[j] = none := by
          rw [← List.getD_eq_getElem entries none hjel]
          exact hempty
        have c1 : (entries.set j (entries.getD ((kk + clz32 (ns.getD kk 0)) % S)
            none)).countP (fun o => o.isSome) =
            entries.countP (fun o => o.isSome) + 1 := by
          rw [List.countP_set _ _ _ _ hjel, hjget, hk0]
          simp only [Option.isSome_none, Option.isSome_some, if_true]
          simp only [Bool.false_eq_true, if_false]
          omega
        have hmid : (entries.set j (entries.getD ((kk + clz32 (ns.getD kk 0)) % S)
            none)).getD ((kk + clz32 (ns.getD kk 0)) % S) none = some (k0, v0) := by
          rw [List.getD_set_my, if_neg (fun hand => hrrj hand.1.symm)]
          exact hk0
        have c2 := countP_isSome_set_none
          (entries.set j (entries.getD ((kk + clz32 (ns.getD kk 0)) % S) none))
          ((kk + clz32 (ns.getD kk 0)) % S) (k0, v0)
          (by rw [List.length_set]; exact hrrel) hmid
        omega

/-- The displacement loop: the invariant, the stored pairs and the occupancy
count survive every iteration, and a non-negative final slot is an in-range
empty slot whose distance to the home `i` is the returned `dist < B`. -/
theorem shiftAux_spec (S B i : Nat) (hi : i < S) :
    ∀ fuel (entries : List (Option (K × V))) (ns : List Nat) (j : Nat),
      CoreWF hc S B entries ns → j < S → entries.getD j none = none →
      CoreWF hc S B (shiftEmptySlotToAux S B i fuel entries ns j).1
        (shiftEmptySlotToAux S B i fuel entries ns j).2.1 ∧
      (∀ k v, HasKV S (shiftEmptySlotToAux S B i fuel entries ns j).1 k v ↔
        HasKV S entries k v) ∧
      (shiftEmptySlotToAux S B i fuel entries ns j).1.countP (fun o => o.isSome) =
        entries.countP (fun o => o.isSome) ∧
      (0 ≤ (shiftEmptySlotToAux S B i fuel entries ns j).2.2.1 →
        (shiftEmptySlotToAux S B i fuel entries ns j).2.2.1.toNat < S ∧
        (shiftEmptySlotToAux S B i fuel entries ns j).1.getD
          (shiftEmptySlotToAux S B i fuel entries ns j).2.2.1.toNat none = none ∧
        (shiftEmptySlotToAux S B i fuel entries ns j).2.2.2 =
          ((hopDist S i (shiftEmptySlotToAux S B i fuel entries ns j).2.2.1.toNat : Nat) : Int) ∧
        hopDist S i (shiftEmptySlotToAux S B i fuel entries ns j).2.2.1.toNat < B) := by
  intro fuel
  induction fuel with
  | zero =>
    intro entries ns j hcore hj hempty
    have hS : 0 < S := hcore.size_pos
    have hdist : gomod ((j : Int) - (i : Int)) (S : Int) = ((hopDist S i j : Nat) : Int) := by
      rw [gomod_sub j i S hj hi]
      rfl
    by_cases hguard : gomod ((j : Int) - (i : Int)) (S : Int) ≥ (B : Int)
    · have heq : shiftEmptySlotToAux S B i 0 entries ns j =
          (entries, ns, -1, gomod ((j : Int) - (i : Int)) (S : Int)) := by
        simp only [shiftEmptySlotToAux, if_pos hguard]
      rw [heq]
      refine ⟨hcore, fun k v => Iff.rfl, rfl, ?_⟩
      intro hge
      simp only at hge
      omega
    · have heq : shiftEmptySlotToAux S B i 0 entries ns j =
          (entries, ns, (j : Int), gomod ((j : Int) - (i : Int)) (S : Int)) := by
        simp only [shiftEmptySlotToAux, if_neg hguard]
      rw [heq]
      refine ⟨hcore, fun k v => Iff.rfl, rfl, ?_⟩
      intro _
      simp only
      rw [Int.toNat_natCast]
      refine ⟨hj, hempty, hdist, ?_⟩
      rw [hdist] at hguard
      push_neg at hguard
      have : (hopDist S i j : Int) < (B : Int) := hguard
      omega
  | succ fuel ih =>
    intro entries ns j hcore hj hempty
    have hS : 0 < S := hcore.size_pos
    have hdist : gomod ((j : Int) - (i : Int)) (S : Int) = ((hopDist S i j : Nat) : Int) := by
      rw [gomod_sub j i S hj hi]
      rfl
    by_cases hguard : gomod ((j : Int) - (i : Int)) (S : Int) ≥ (B : Int)
    · obtain ⟨hfail, hsucc⟩ := reshift_spec hc S B entries ns j hcore hj hempty
      by_cases hneg : (reshift S B entries ns j).2.2 < 0
      · obtain ⟨he, hn⟩ := hfail hneg
        have heq : shiftEmptySlotToAux S B i (fuel + 1) entries ns j =
            ((reshift S B entries ns j).1, (reshift S B entries ns j).2.1,
              (reshift S B entries ns j).2.2, gomod ((j : Int) - (i : Int)) (S : Int)) := by
          simp only [shiftEmptySlotToAux, if_pos hguard, if_pos hneg]
        rw [heq, he, hn]
        refine ⟨hcore, fun k v => Iff.rfl, rfl, ?_⟩
        intro hge
        simp only at hge
        omega
      · push_neg at hneg
        obtain ⟨hcore2, hlt2, hempty2, hu, hkv2, hcnt2⟩ := hsucc hneg
        have heq : shiftEmptySlotToAux S B i (fuel + 1) entries ns j =
            shiftEmptySlotToAux S B i fuel (reshift S B entries ns j).1
              (reshift S B entries ns j).2.1 (reshift S B entries ns j).2.2.toNat := by
          simp only [shiftEmptySlotToAux, if_pos hguard, if_neg (by omega : ¬ (reshift S B entries ns j).2.2 < 0)]
        rw [heq]
        obtain ⟨ih1, ih2, ih3, ih4⟩ := ih (reshift S B entries ns j).1
          (reshift S B entries ns j).2.1 (reshift S B entries ns j).2.2.toNat
          hcore2 hlt2 hempty2
        refine ⟨ih1, ?_, ?_, ih4⟩
        · intro k v
          exact (ih2 k v).trans (hkv2 k v)
        · rw [ih3, hcnt2]
    · have heq : shiftEmptySlotToAux S B i (fuel + 1) entries ns j =
          (entries, ns, (j : Int), gomod ((j : Int) - (i : Int)) (S : Int)) := by
        simp only [shiftEmptySlotToAux, if_neg hguard]
      rw [heq]
      refine ⟨hcore, fun k v => Iff.rfl, rfl, ?_⟩
      intro _
      simp only
      rw [Int.toNat_natCast]
      refine ⟨hj, hempty, hdist, ?_⟩
      rw [hdist] at hguard
      push_neg at hguard
      have : (hopDist S i j : Int) < (B : Int) := hguard
      omega

/-! Lemmas about `Put`. -/

/-- A non-negative `findEntry` result witnesses presence of the key. -/
theorem mapsTo_of_findEntry_nonneg (m : Map K V) (hwf : WF hc m) (key : K)
    (hge : 0 ≤ findEntry m (hashKey hc m.config.Size key) key) :
    ∃ w, MapsTo m key w := by
  have hsound := findEntryAux_sound m.config.Size m.entries key hwf.size_pos 33
    (m.neighbors.getD (hashKey hc m.config.Size key) 0)
    ((gomod ((hashKey hc m.config.Size key : Int) +
      ((clz32 (m.neighbors.getD (hashKey hc m.config.Size key) 0) : Int)))
      (m.config.Size : Int)).toNat)
    (by
      have hcast : ((hashKey hc m.config.Size key : Nat) : Int) +
          ((clz32 (m.neighbors.getD (hashKey hc m.config.Size key) 0) : Int)) =
          (((hashKey hc m.config.Size key +
            clz32 (m.neighbors.getD (hashKey hc m.config.Size key) 0) : Nat)) : Int) := by
        push_cast; ring
      rw [hcast, gomod_natCast_toNat]
      exact Nat.mod_lt _ hwf.size_pos)
    (by rw [findEntry] at hge; exact hge)
  rw [show findEntryAux m.config.Size m.entries key 33
      (m.neighbors.getD (hashKey hc m.config.Size key) 0)
      ((gomod ((hashKey hc m.config.Size key : Int) +
        ((clz32 (m.neighbors.getD (hashKey hc m.config.Size key) 0) : Int)))
        (m.config.Size : Int)).toNat) =
      findEntry m (hashKey hc m.config.Size key) key from rfl] at hsound
  obtain ⟨hlt2, hkey2⟩ := hsound
  obtain ⟨w, hw⟩ := keyAt_some m.entries
    (findEntry m (hashKey hc m.config.Size key) key).toNat key hkey2
  exact ⟨w, _, hlt2, hw⟩

/-- `Put` on a present key: the exact state transition of the source. -/
theorem Put_overwrite_eq (m : Map K V) (hwf : WF hc m) (key : K) (v0 value : V) (s : Nat)
    (hs : s < m.config.Size) (hkv : m.entries.getD s none = some (key, v0)) :
    Put hc m key value =
      ({ m with entries := m.entries.set s (some (key, value)) }, true) := by
  have hfe := findEntry_eq_slot hc m hwf key v0 s hs hkv
  rw [Put]
  simp only [hfe]
  rw [if_pos (by positivity)]
  rw [Int.toNat_natCast, hkv]
  rfl

/-- Overwriting the value stored for a key preserves well-formedness. -/
theorem WF_overwrite (m : Map K V) (hwf : WF hc m) (key : K) (v0 value : V) (s : Nat)
    (hs : s < m.config.Size) (hkv : m.entries.getD s none = some (key, v0)) :
    WF hc ({ m with entries := m.entries.set s (some (key, value)) } : Map K V) := by
  obtain ⟨hS, hB, hel, hnl, hnb, hocc, hbm, huq, hcnt⟩ := hwf
  have hent2 : ∀ t, (m.entries.set s (some (key, value))).getD t none =
      if t = s then some (key, value) else m.entries.getD t none := by
    intro t
    rw [List.getD_set_my]
    by_cases ht : t = s
    · subst ht
      rw [if_pos ⟨rfl, by rw [hel]; exact hs⟩, if_pos rfl]
    · rw [if_neg (fun hand => ht hand.1.symm), if_neg ht]
  refine ⟨hS, hB, by rw [List.length_set]; exact hel, hnl, hnb, ?_, ?_, ?_, ?_⟩
  · intro t k v ht hkv2
    simp only at hkv2 ⊢
    rw [hent2] at hkv2
    by_cases hts : t = s
    · rw [if_pos hts] at hkv2
      have hkeq : k = key := congrArg Prod.fst (Option.some_inj.1 hkv2.symm)
      rw [hts, hkeq]
      exact hocc s key v0 hs hkv
    · rw [if_neg hts] at hkv2
      exact hocc t k v ht hkv2
  · intro h b hh hb hbit
    simp only at hbit ⊢
    obtain ⟨hbB, hbS, k1, v1, hk1, hhome1⟩ := hbm h b hh hb hbit
    refine ⟨hbB, hbS, ?_⟩
    by_cases hslot : (h + b) % m.config.Size = s
    · rw [hslot] at hk1
      rw [hkv] at hk1
      have hkeq : k1 = key := (congrArg Prod.fst (Option.some_inj.1 hk1)).symm
      refine ⟨key, value, ?_, by rw [← hkeq]; exact hhome1⟩
      rw [hent2, if_pos hslot]
    · refine ⟨k1, v1, ?_, hhome1⟩
      rw [hent2, if_neg hslot]
      exact hk1
  · intro t u k v w ht hu hkv2 hkw2
    simp only at hkv2 hkw2
    rw [hent2] at hkv2 hkw2
    by_cases hts : t = s
    · by_cases hus : u = s
      · rw [hts, hus]
      · rw [if_pos hts] at hkv2
        rw [if_neg hus] at hkw2
        have hkeq : k = key := congrArg Prod.fst (Option.some_inj.1 hkv2.symm)
        rw [hkeq] at hkw2
        rw [hts]
        exact (huq u s key w v0 hu hs hkw2 hkv).symm
    · by_cases hus : u = s
      · rw [if_neg hts] at hkv2
        rw [if_pos hus] at hkw2
        have hkeq : k = key := congrArg Prod.fst (Option.some_inj.1 hkw2.symm)
        rw [hkeq] at hkv2
        rw [hus]
        exact huq t s key v v0 ht hs hkv2 hkv
      · rw [if_neg hts] at hkv2
        rw [if_neg hus] at hkw2
        exact huq t u k v w ht hu hkv2 hkw2
  · simp only
    have hsel : s < m.entries.length := by rw [hel]; exact hs
    have hsget : m.entries[s] = some (key, v0) := getD_some_getElem m.entries s _ hsel hkv
    rw [List.countP_set _ _ _ _ hsel, hsget]
    simp only [Option.isSome_some, if_true]
    have hpos : 0 < m.entries.countP (fun o => o.isSome) :=
      List.countP_pos_iff.mpr ⟨some (key, v0), by rw [← hsget]; exact List.getElem_mem hsel, rfl⟩
    omega

/-- Overwriting stores the new value for the key and keeps every other
binding. -/
theorem mapsTo_overwrite (m : Map K V) (hwf : WF hc m) (key : K) (v0 value : V) (s : Nat)
    (hs : s < m.config.Size) (hkv : m.entries.getD s none = some (key, v0)) :
    MapsTo ({ m with entries := m.entries.set s (some (key, value)) } : Map K V) key value ∧
    ∀ k w, k ≠ key →
      (MapsTo ({ m with entries := m.entries.set s (some (key, value)) } : Map K V) k w ↔
        MapsTo m k w) := by
  have hel := hwf.entries_len
  have hent2 : ∀ t, (m.entries.set s (some (key, value))).getD t none =
      if t = s then some (key, value) else m.entries.getD t none := by
    intro t
    rw [List.getD_set_my]
    by_cases ht : t = s
    · subst ht
      rw [if_pos ⟨rfl, by rw [hel]; exact hs⟩, if_pos rfl]
    · rw [if_neg (fun hand => ht hand.1.symm), if_neg ht]
  constructor
  · exact ⟨s, hs, by simp only; rw [hent2, if_pos rfl]⟩
  · intro k w hk
    constructor
    · rintro ⟨t, ht, hkw⟩
      simp only at hkw
      rw [hent2] at hkw
      by_cases hts : t = s
      · rw [if_pos hts] at hkw
        exact absurd (congrArg Prod.fst (Option.some_inj.1 hkw)).symm hk
      · rw [if_neg hts] at hkw
        exact ⟨t, ht, hkw⟩
    · rintro ⟨t, ht, hkw⟩
      refine ⟨t, ht, ?_⟩
      simp only
      rw [hent2, if_neg]
      · exact hkw
      · intro hts
        rw [hts, hkv] at hkw
        exact hk (congrArg Prod.fst (Option.some_inj.1 hkw)).symm

/-- Placing a fresh key into an empty slot within its neighborhood and
setting the home's bit preserves the core invariant, binds the key, keeps
all other bindings, and raises the occupancy count by one. -/
theorem insert_final_core (S B : Nat) (entries : List (Option (K × V))) (ns : List Nat)
    (key : K) (value : V) (j : Nat)
    (hcore : CoreWF hc S B entries ns)
    (hj : j < S) (hempty : entries.getD j none = none)
    (habs : ∀ w, ¬ HasKV S entries key w)
    (hd : hopDist S (hashKey hc S key) j < B) :
    CoreWF hc S B (entries.set j (some (key, value)))
      (ns.set (hashKey hc S key) (ns.getD (hashKey hc S key) 0 |||
        (1 <<< (31 - hopDist S (hashKey hc S key) j)))) ∧
    HasKV S (entries.set j (some (key, value))) key value ∧
    (∀ k w, k ≠ key →
      (HasKV S (entries.set j (some (key, value))) k w ↔ HasKV S entries k w)) ∧
    (entries.set j (some (key, value))).countP (fun o => o.isSome) =
      entries.countP (fun o => o.isSome) + 1 := by
  obtain ⟨hS, hB, hel, hnl, hnb, hocc, hbm, huq⟩ := hcore
  have hh : hashKey hc S key < S := Nat.mod_lt _ hS
  have hd31 : hopDist S (hashKey hc S key) j ≤ 31 := by omega
  have hslotd : (hashKey hc S key + hopDist S (hashKey hc S key) j) % S = j :=
    slot_of_hopDist S (hashKey hc S key) j hh hj
  have hent3 : ∀ t, (entries.set j (some (key, value))).getD t none =
      if t = j then some (key, value) else entries.getD t none := by
    intro t
    rw [List.getD_set_my]
    by_cases ht : t = j
    · subst ht
      rw [if_pos ⟨rfl, by rw [hel]; exact hj⟩, if_pos rfl]
    · rw [if_neg (fun hand => ht hand.1.symm), if_neg ht]
  have hns3 : ∀ x, (ns.set (hashKey hc S key) (ns.getD (hashKey hc S key) 0 |||
      (1 <<< (31 - hopDist S (hashKey hc S key) j)))).getD x 0 =
      if x = hashKey hc S key then
        ns.getD (hashKey hc S key) 0 ||| (1 <<< (31 - hopDist S (hashKey hc S key) j))
      else ns.getD x 0 := by
    intro x
    rw [List.getD_set_my]
    by_cases hx : x = hashKey hc S key
    · subst hx
      rw [if_pos ⟨rfl, by rw [hnl]; exact hh⟩, if_pos rfl]
    · rw [if_neg (fun hand => hx hand.1.symm), if_neg hx]
  have hor : ∀ w b d : Nat, b ≤ 31 → d ≤ 31 →
      (w ||| (1 <<< (31 - d))).testBit (31 - b) = (w.testBit (31 - b) || decide (b = d)) := by
    intro w b d hb hdd
    rw [Nat.testBit_lor, testBit_one_shiftLeft]
    by_cases hbd : b = d
    · subst hbd
      simp
    · have : ¬ (31 - d = 31 - b) := by omega
      simp [hbd, this]
  refine ⟨⟨hS, hB, by rw [List.length_set]; exact hel,
    by rw [List.length_set]; exact hnl, ?_, ?_, ?_, ?_⟩, ?_, ?_, ?_⟩
  · intro x
    rw [hns3]
    split
    · exact Nat.or_lt_two_pow (hnb _) (one_shiftLeft_lt _ (by omega))
    · exact hnb x
  · -- occupancy clause
    intro t k v ht hkv2
    rw [hent3] at hkv2
    by_cases htj : t = j
    · rw [if_pos htj] at hkv2
      have hkeq : k = key := congrArg Prod.fst (Option.some_inj.1 hkv2.symm)
      rw [htj, hkeq]
      refine ⟨hd, ?_⟩
      rw [hns3, if_pos rfl, hor _ _ _ hd31 hd31]
      simp
    · rw [if_neg htj] at hkv2
      obtain ⟨hdB2, hbit2⟩ := hocc t k v ht hkv2
      refine ⟨hdB2, ?_⟩
      rw [hns3]
      by_cases hhk : hashKey hc S k = hashKey hc S key
      · rw [if_pos hhk, hor _ _ _ (by omega) hd31, ← hhk, hbit2]
        simp
      · rw [if_neg hhk]
        exact hbit2
  · -- bitmap clause
    intro x b hx hb hbit
    rw [hns3] at hbit
    by_cases hxh : x = hashKey hc S key
    · subst hxh
      rw [if_pos rfl, hor _ _ _ hb hd31] at hbit
      simp only [Bool.or_eq_true, decide_eq_true_eq] at hbit
      rcases hbit with hbit | hbit
      · obtain ⟨hbB, hbS, k1, v1, hk1, hhome1⟩ := hbm _ b hx hb hbit
        refine ⟨hbB, hbS, k1, v1, ?_, hhome1⟩
        rw [hent3, if_neg]
        · exact hk1
        · intro heq
          rw [heq, hempty] at hk1
          exact absurd hk1 (by simp)
      · subst hbit
        refine ⟨hd, hopDist_lt S _ j hS, key, value, ?_, rfl⟩
        rw [hslotd, hent3, if_pos rfl]
    · rw [if_neg hxh] at hbit
      obtain ⟨hbB, hbS, k1, v1, hk1, hhome1⟩ := hbm x b hx hb hbit
      refine ⟨hbB, hbS, k1, v1, ?_, hhome1⟩
      rw [hent3, if_neg]
      · exact hk1
      · intro heq
        rw [heq, hempty] at hk1
        exact absurd hk1 (by simp)
  · -- uniqueness clause
    intro t u k v w ht hu hkv2 hkw2
    rw [hent3] at hkv2 hkw2
    by_cases htj : t = j
    · by_cases huj : u = j
      · rw [htj, huj]
      · rw [if_pos htj] at hkv2
        rw [if_neg huj] at hkw2
        have hkeq : k = key := congrArg Prod.fst (Option.some_inj.1 hkv2.symm)
        rw [hkeq] at hkw2
        exact absurd ⟨u, hu, hkw2⟩ (habs w)
    · by_cases huj : u = j
      · rw [if_neg htj] at hkv2
        rw [if_pos huj] at hkw2
        have hkeq : k = key := congrArg Prod.fst (Option.some_inj.1 hkw2.symm)
        rw [hkeq] at hkv2
        exact absurd ⟨t, ht, hkv2⟩ (habs v)
      · rw [if_neg htj] at hkv2
        rw [if_neg huj] at hkw2
        exact huq t u k v w ht hu hkv2 hkw2
  · exact ⟨j, hj, by rw [hent3, if_pos rfl]⟩
  · intro k w hk
    constructor
    · rintro ⟨t, ht, hkw⟩
      rw [hent3] at hkw
      by_cases htj : t = j
      · rw [if_pos htj] at hkw
        exact absurd (congrArg Prod.fst (Option.some_inj.1 hkw)).symm hk
      · rw [if_neg htj] at hkw
        exact ⟨t, ht, hkw⟩
    · rintro ⟨t, ht, hkw⟩
      refine ⟨t, ht, ?_⟩
      rw [hent3, if_neg]
      · exact hkw
      · intro htj
        rw [htj, hempty] at hkw
        exact absurd hkw (by simp)
  · have hjel : j < entries.length := by rw [hel]; exact hj
    have hjget : entries[j] = none := by
      rw [← List.getD_eq_getElem entries none hjel]
      exact hempty
    rw [List.countP_set _ _ _ _ hjel, hjget]
    simp only [Option.isSome_none, Option.isSome_some, if_true]
    simp only [Bool.false_eq_true, if_false]
    omega

/-- `Put` of an absent key: well-formedness is preserved; on success the key
is bound to the value, other bindings are untouched and the counter rises by
one; on failure the bindings and the counter are unchanged (entries may have
been relocated internally). -/
theorem Put_insert_spec (m : Map K V) (key : K) (value : V) (hwf : WF hc m)
    (habs : ∀ w, ¬ MapsTo m key w) :
    WF hc (Put hc m key value).1 ∧
    (Put hc m key value).1.config = m.config ∧
    ((Put hc m key value).2 = true →
      MapsTo (Put hc m key value).1 key value ∧
      (∀ k w, k ≠ key → (MapsTo (Put hc m key value).1 k w ↔ MapsTo m k w)) ∧
      (Put hc m key value).1.n = m.n + 1) ∧
    ((Put hc m key value).2 = false →
      (∀ k w, MapsTo (Put hc m key value).1 k w ↔ MapsTo m k w) ∧
      (Put hc m key value).1.n = m.n) := by
  have hS : 0 < m.config.Size := hwf.size_pos
  have hh : hashKey hc m.config.Size key < m.config.Size := Nat.mod_lt _ hS
  have hneg : ¬ (0 : Int) ≤ findEntry m (hashKey hc m.config.Size key) key := by
    intro hge
    obtain ⟨w, hw⟩ := mapsTo_of_findEntry_nonneg hc m hwf key hge
    exact habs w hw
  by_cases hguard : findEmptySlot m (hashKey hc m.config.Size key) < 0 ∨
      m.neighbors.getD (findEmptySlot m (hashKey hc m.config.Size key)).toNat 0 = allBitSet
  · have hPut : Put hc m key value = (m, false) := by
      simp only [Put, if_neg hneg, if_pos hguard]
    rw [hPut]
    refine ⟨hwf, rfl, ?_, ?_⟩
    · intro hcontra
      exact absurd hcontra (by simp)
    · intro _
      exact ⟨fun k w => Iff.rfl, rfl⟩
  · have hes0 : (0 : Int) ≤ findEmptySlot m (hashKey hc m.config.Size key) := by
      rcases not_or.1 hguard with ⟨h1, -⟩
      omega
    obtain ⟨hesS, hesE⟩ := findEmptySlot_spec m _ hS hh hes0
    obtain ⟨hcoreR, hkvR, hcntR, hsuccR⟩ := shiftAux_spec hc m.config.Size
      m.config.BucketSize (hashKey hc m.config.Size key) hh m.config.Size
      m.entries m.neighbors
      (findEmptySlot m (hashKey hc m.config.Size key)).toNat
      (coreWF_of_WF hc m hwf) hesS hesE
    by_cases hjneg : (shiftEmptySlotToAux m.config.Size m.config.BucketSize
        (hashKey hc m.config.Size key) m.config.Size m.entries m.neighbors
        (findEmptySlot m (hashKey hc m.config.Size key)).toNat).2.2.1 < 0
    · have hPut : Put hc m key value =
          ({ m with
              entries := (shiftEmptySlotToAux m.config.Size m.config.BucketSize
                (hashKey hc m.config.Size key) m.config.Size m.entries m.neighbors
                (findEmptySlot m (hashKey hc m.config.Size key)).toNat).1,
              neighbors := (shiftEmptySlotToAux m.config.Size m.config.BucketSize
                (hashKey hc m.config.Size key) m.config.Size m.entries m.neighbors
                (findEmptySlot m (hashKey hc m.config.Size key)).toNat).2.1 }, false) := by
        simp only [Put, shiftEmptySlotTo, if_neg hneg, if_neg hguard, if_pos hjneg]
      rw [hPut]
      refine ⟨?_, rfl, ?_, ?_⟩
      · apply WF_of_coreWF
        · exact hcoreR
        · simp only
          rw [hcntR]
          exact hwf.count
      · intro hcontra
        exact absurd hcontra (by simp)
      · intro _
        exact ⟨fun k w => hkvR k w, rfl⟩
    · have hjge : (0 : Int) ≤ (shiftEmptySlotToAux m.config.Size m.config.BucketSize
          (hashKey hc m.config.Size key) m.config.Size m.entries m.neighbors
          (findEmptySlot m (hashKey hc m.config.Size key)).toNat).2.2.1 := by omega
      obtain ⟨hjS, hjE, hdisteq, hdB⟩ := hsuccR hjge
      have htn : (shiftEmptySlotToAux m.config.Size m.config.BucketSize
          (hashKey hc m.config.Size key) m.config.Size m.entries m.neighbors
          (findEmptySlot m (hashKey hc m.config.Size key)).toNat).2.2.2.toNat =
          hopDist m.config.Size (hashKey hc m.config.Size key)
            (shiftEmptySlotToAux m.config.Size m.config.BucketSize
              (hashKey hc m.config.Size key) m.config.Size m.entries m.neighbors
              (findEmptySlot m (hashKey hc m.config.Size key)).toNat).2.2.1.toNat := by
        rw [hdisteq]
        exact Int.toNat_natCast _
      have habs2 : ∀ w, ¬ HasKV m.config.Size (shiftEmptySlotToAux m.config.Size
          m.config.BucketSize (hashKey hc m.config.Size key) m.config.Size m.entries
          m.neighbors (findEmptySlot m (hashKey hc m.config.Size key)).toNat).1 key w :=
        fun w hw => habs w ((hkvR key w).1 hw)
      obtain ⟨hcoreF, hkvF, hothF, hcntF⟩ := insert_final_core hc m.config.Size
        m.config.BucketSize _ _ key value _ hcoreR hjS hjE habs2 hdB
      have hPut : Put hc m key value =
          ({ m with
              entries := (shiftEmptySlotToAux m.config.Size m.config.BucketSize
                (hashKey hc m.config.Size key) m.config.Size m.entries m.neighbors
                (findEmptySlot m (hashKey hc m.config.Size key)).toNat).1.set
                  (shiftEmptySlotToAux m.config.Size m.config.BucketSize
                    (hashKey hc m.config.Size key) m.config.Size m.entries m.neighbors
                    (findEmptySlot m (hashKey hc m.config.Size key)).toNat).2.2.1.toNat
                  (some (key, value)),
              neighbors := (shiftEmptySlotToAux m.config.Size m.config.BucketSize
                (hashKey hc m.config.Size key) m.config.Size m.entries m.neighbors
                (findEmptySlot m (hashKey hc m.config.Size key)).toNat).2.1.set
                  (hashKey hc m.config.Size key)
                  ((shiftEmptySlotToAux m.config.Size m.config.BucketSize
                    (hashKey hc m.config.Size key) m.config.Size m.entries m.neighbors
                    (findEmptySlot m (hashKey hc m.config.Size key)).toNat).2.1.getD
                      (hashKey hc m.config.Size key) 0 |||
                    (1 <<< (31 - hopDist m.config.Size (hashKey hc m.config.Size key)
                      (shiftEmptySlotToAux m.config.Size m.config.BucketSize
                        (hashKey hc m.config.Size key) m.config.Size m.entries m.neighbors
                        (findEmptySlot m
                          (hashKey hc m.config.Size key)).toNat).2.2.1.toNat))),
              n := m.n + 1 }, true) := by
        simp only [Put, shiftEmptySlotTo, if_neg hneg, if_neg hguard, if_neg hjneg, htn]
      rw [hPut]
      refine ⟨?_, rfl, ?_, ?_⟩
      · apply WF_of_coreWF
        · exact hcoreF
        · simp only
          rw [hcntF, hcntR]
          have := hwf.count
          omega
      · intro _
        exact ⟨hkvF, fun k w hk => (hothF k w hk).trans (hkvR k w), rfl⟩
      · intro hcontra
        exact absurd hcontra (by simp)

/-! Preservation along operation sequences. -/

/-- `Delete` of an absent key leaves the table exactly unchanged. -/
theorem Delete_absent_eq (m : Map K V) (hwf : WF hc m) (key : K)
    (habs : ∀ w, ¬ MapsTo m key w) :
    Delete hc m key = (m, default, false) := by
  have hneg : ¬ (0 : Int) ≤ findEntry m (hashKey hc m.config.Size key) key := by
    intro hge
    obtain ⟨w, hw⟩ := mapsTo_of_findEntry_nonneg hc m hwf key hge
    exact habs w hw
  simp only [Delete, if_neg hneg]

/-- A successful `Get` witnesses the binding. -/
theorem mapsTo_of_get (m : Map K V) (hwf : WF hc m) (key : K) (w : V)
    (hget : Get hc m key = (w, true)) : MapsTo m key w := by
  by_cases hp : ∃ u, MapsTo m key u
  · obtain ⟨u, hu⟩ := hp
    rw [Get_eq_of_mapsTo hc m hwf key u hu] at hget
    have : u = w := congrArg Prod.fst hget
    rw [← this]
    exact hu
  · push_neg at hp
    rw [Get_eq_of_absent hc m hwf key hp] at hget
    have : False := by
      have := congrArg Prod.snd hget
      simp at this
    exact absurd this (by simp)

/-- A single operation preserves well-formedness and the configuration. -/
theorem WF_applyOp (m : Map K V) (op : Op K V) (hwf : WF hc m) :
    WF hc (applyOp hc m op) ∧ (applyOp hc m op).config = m.config := by
  cases op with
  | put k v =>
    by_cases hp : ∃ w, MapsTo m k w
    · obtain ⟨w, s, hs, hkv⟩ := hp
      rw [applyOp, Put_overwrite_eq hc m hwf k w v s hs hkv]
      exact ⟨WF_overwrite hc m hwf k w v s hs hkv, rfl⟩
    · push_neg at hp
      obtain ⟨hwf2, hcfg, -, -⟩ := Put_insert_spec hc m k v hwf hp
      exact ⟨hwf2, hcfg⟩
  | delete k =>
    by_cases hp : ∃ w, MapsTo m k w
    · obtain ⟨w, s, hs, hkv⟩ := hp
      rw [applyOp, Delete_present_eq hc m hwf k w s hs hkv]
      exact ⟨WF_delete hc m hwf k w s hs hkv, rfl⟩
    · push_neg at hp
      rw [applyOp, Delete_absent_eq hc m hwf k hp]
      exact ⟨hwf, rfl⟩

/-- An operation that does not address key `k` keeps `k`'s binding. -/
theorem mapsTo_applyOp_untouched (m : Map K V) (op : Op K V) (k : K) (v : V)
    (hwf : WF hc m) (hfree : ¬ touchesKey k op) (hmt : MapsTo m k v) :
    MapsTo (applyOp hc m op) k v := by
  cases op with
  | put q w =>
    have hqk : q ≠ k := hfree
    by_cases hp : ∃ u, MapsTo m q u
    · obtain ⟨u, s, hs, hkv⟩ := hp
      rw [applyOp, Put_overwrite_eq hc m hwf q u w s hs hkv]
      exact ((mapsTo_overwrite hc m hwf q u w s hs hkv).2 k v (fun h => hqk h.symm)).2 hmt
    · push_neg at hp
      obtain ⟨-, -, htrue, hfalse⟩ := Put_insert_spec hc m q w hwf hp
      rw [applyOp]
      rcases hb : (Put hc m q w).2 with _ | _
      · exact ((hfalse hb).1 k v).2 hmt
      · exact ((htrue hb).2.1 k v (fun h => hqk h.symm)).2 hmt
  | delete q =>
    have hqk : q ≠ k := hfree
    by_cases hp : ∃ u, MapsTo m q u
    · obtain ⟨u, s, hs, hkv⟩ := hp
      rw [applyOp, Delete_present_eq hc m hwf q u s hs hkv]
      exact (mapsTo_delete_other hc m hwf q u s hs hkv k (fun h => hqk h.symm) v).2 hmt
    · push_neg at hp
      rw [applyOp, Delete_absent_eq hc m hwf q hp]
      exact hmt

/-- Well-formedness survives any operation sequence. -/
theorem WF_runOps (ops : List (Op K V)) :
    ∀ m : Map K V, WF hc m → WF hc (runOps hc m ops) := by
  induction ops with
  | nil =>
    intro m hwf
    exact hwf
  | cons op ops ih =>
    intro m hwf
    rw [runOps, List.foldl_cons]
    exact ih _ (WF_applyOp hc m op hwf).1

/-- A binding untouched by a sequence of operations survives it. -/
theorem mapsTo_runOps_untouched (k : K) (v : V) (ops : List (Op K V)) :
    ∀ m : Map K V, WF hc m → MapsTo m k v → (∀ op ∈ ops, ¬ touchesKey k op) →
      MapsTo (runOps hc m ops) k v := by
  induction ops with
  | nil =>
    intro m _ hmt _
    exact hmt
  | cons op ops ih =>
    intro m hwf hmt hfree
    rw [runOps, List.foldl_cons]
    exact ih _ (WF_applyOp hc m op hwf).1
      (mapsTo_applyOp_untouched hc m op k v hwf (hfree op (List.mem_cons_self op ops)) hmt)
      (fun o ho => hfree o (List.mem_cons_of_mem _ ho))

/-! The `AutoResize` flag is dead, and the part_000 variant computes the
same results: both facts are proved as bisimulations through all the
operations. -/

theorem setAuto_configSize (m : Map K V) (b : Bool) :
    (setAuto m b).config.Size = m.config.Size := rfl

theorem setAuto_entries (m : Map K V) (b : Bool) :
    (setAuto m b).entries = m.entries := rfl

theorem setAuto_neighbors (m : Map K V) (b : Bool) :
    (setAuto m b).neighbors = m.neighbors := rfl

theorem setAuto_n (m : Map K V) (b : Bool) : (setAuto m b).n = m.n := rfl

theorem Get_setAuto (m : Map K V) (b : Bool) (key : K) :
    Get hc (setAuto m b) key = Get hc m key := rfl

theorem findEntry_setAuto (m : Map K V) (b : Bool) (hash : Nat) (key : K) :
    findEntry (setAuto m b) hash key = findEntry m hash key := rfl

theorem findEmptySlot_setAuto (m : Map K V) (b : Bool) (startHash : Nat) :
    findEmptySlot (setAuto m b) startHash = findEmptySlot m startHash := rfl

theorem shiftEmptySlotTo_setAuto (m : Map K V) (b : Bool) (i j : Nat) :
    shiftEmptySlotTo (setAuto m b) i j = shiftEmptySlotTo m i j := rfl

theorem Put_setAuto (m : Map K V) (b : Bool) (key : K) (value : V) :
    Put hc (setAuto m b) key value =
      (setAuto (Put hc m key value).1 b, (Put hc m key value).2) := by
  by_cases h1 : (0 : Int) ≤ findEntry m (hashKey hc m.config.Size key) key
  · simp only [Put, findEntry_setAuto, setAuto_configSize, setAuto_entries,
      setAuto_neighbors, setAuto_n, if_pos h1]
    rfl
  · by_cases h2 : findEmptySlot m (hashKey hc m.config.Size key) < 0 ∨
        m.neighbors.getD (findEmptySlot m (hashKey hc m.config.Size key)).toNat 0 = allBitSet
    · simp only [Put, findEntry_setAuto, findEmptySlot_setAuto, setAuto_configSize,
        setAuto_entries, setAuto_neighbors, setAuto_n, if_neg h1, if_pos h2]
    · by_cases h3 : (shiftEmptySlotTo m (hashKey hc m.config.Size key)
          (findEmptySlot m (hashKey hc m.config.Size key)).toNat).2.2.1 < 0
      · simp only [Put, findEntry_setAuto, findEmptySlot_setAuto,
          shiftEmptySlotTo_setAuto, setAuto_configSize, setAuto_entries,
          setAuto_neighbors, setAuto_n, if_neg h1, if_neg h2, if_pos h3]
        rfl
      · simp only [Put, findEntry_setAuto, findEmptySlot_setAuto,
          shiftEmptySlotTo_setAuto, setAuto_configSize, setAuto_entries,
          setAuto_neighbors, setAuto_n, if_neg h1, if_neg h2, if_neg h3]
        rfl

theorem Delete_setAuto (m : Map K V) (b : Bool) (key : K) :
    Delete hc (setAuto m b) key =
      (setAuto (Delete hc m key).1 b, (Delete hc m key).2.1, (Delete hc m key).2.2) := by
  by_cases h1 : (0 : Int) ≤ findEntry m (hashKey hc m.config.Size key) key
  · simp only [Delete, findEntry_setAuto, setAuto_configSize, setAuto_entries,
      setAuto_neighbors, setAuto_n, if_pos h1]
    rfl
  · simp only [Delete, findEntry_setAuto, setAuto_configSize, setAuto_entries,
      setAuto_neighbors, setAuto_n, if_neg h1]

theorem runOps_setAuto (ops : List (Op K V)) :
    ∀ (m : Map K V) (b : Bool),
      runOps hc (setAuto m b) ops = setAuto (runOps hc m ops) b := by
  induction ops with
  | nil =>
    intro m b
    rfl
  | cons op ops ih =>
    intro m b
    rw [runOps, runOps, List.foldl_cons, List.foldl_cons]
    have hstep : applyOp hc (setAuto m b) op = setAuto (applyOp hc m op) b := by
      cases op with
      | put k v =>
        rw [applyOp, applyOp, Put_setAuto]
      | delete k =>
        rw [applyOp, applyOp, Delete_setAuto]
    rw [hstep]
    exact ih (applyOp hc m op) b

theorem toMap0_size (m : Map K V) : (toMap0 m).size = m.config.Size := rfl

theorem toMap0_entries (m : Map K V) : (toMap0 m).entries = m.entries := rfl

theorem toMap0_neighbors (m : Map K V) : (toMap0 m).neighbors = m.neighbors := rfl

theorem toMap0_n (m : Map K V) : (toMap0 m).n = m.n := rfl

theorem Get0_toMap0 (m : Map K V) (key : K) :
    Get0 hc (toMap0 m) key = Get hc m key := rfl

theorem findEntry0_toMap0 (m : Map K V) (hash : Nat) (key : K) :
    findEntry0 (toMap0 m) hash key = findEntry m hash key := rfl

theorem findEmptySlot0_toMap0 (m : Map K V) (startHash : Nat) :
    findEmptySlot0 (toMap0 m) startHash = findEmptySlot m startHash := rfl

theorem shiftEmptySlotTo0_toMap0 (m : Map K V) (i j : Nat) :
    shiftEmptySlotTo0 (toMap0 m) i j = shiftEmptySlotTo m i j := rfl

theorem Put0_toMap0 (m : Map K V) (key : K) (value : V) :
    Put0 hc (toMap0 m) key value =
      (toMap0 (Put hc m key value).1, (Put hc m key value).2) := by
  by_cases h1 : (0 : Int) ≤ findEntry m (hashKey hc m.config.Size key) key
  · simp only [Put0, Put, findEntry0_toMap0, toMap0_size, toMap0_entries,
      toMap0_neighbors, toMap0_n, if_pos h1]
    rfl
  · by_cases h2 : findEmptySlot m (hashKey hc m.config.Size key) < 0 ∨
        m.neighbors.getD (findEmptySlot m (hashKey hc m.config.Size key)).toNat 0 = allBitSet
    · simp only [Put0, Put, findEntry0_toMap0, findEmptySlot0_toMap0, toMap0_size,
        toMap0_entries, toMap0_neighbors, toMap0_n, if_neg h1, if_pos h2]
    · by_cases h3 : (shiftEmptySlotTo m (hashKey hc m.config.Size key)
          (findEmptySlot m (hashKey hc m.config.Size key)).toNat).2.2.1 < 0
      · simp only [Put0, Put, findEntry0_toMap0, findEmptySlot0_toMap0,
          shiftEmptySlotTo0_toMap0, toMap0_size, toMap0_entries, toMap0_neighbors,
          toMap0_n, if_neg h1, if_neg h2, if_pos h3]
        rfl
      · simp only [Put0, Put, findEntry0_toMap0, findEmptySlot0_toMap0,
          shiftEmptySlotTo0_toMap0, toMap0_size, toMap0_entries, toMap0_neighbors,
          toMap0_n, if_neg h1, if_neg h2, if_neg h3]
        rfl

theorem Delete0_toMap0 (m : Map K V) (key : K) :
    Delete0 hc (toMap0 m) key =
      (toMap0 (Delete hc m key).1, (Delete hc m key).2.1, (Delete hc m key).2.2) := by
  by_cases h1 : (0 : Int) ≤ findEntry m (hashKey hc m.config.Size key) key
  · simp only [Delete0, Delete, findEntry0_toMap0, toMap0_size, toMap0_entries,
      toMap0_neighbors, toMap0_n, if_pos h1]
    rfl
  · simp only [Delete0, Delete, findEntry0_toMap0, toMap0_size, toMap0_entries,
      toMap0_neighbors, toMap0_n, if_neg h1]

/-! The claims. -/

/-- C1: for every key `k` and value `v`, if `Put(k, v)` returns true on a
reachable table and `k` is not subsequently deleted or overwritten by a
later `Put`, then `Get(k)` returns `(v, true)`. -/
theorem C1_put_get_roundtrip (c : Config) (ops0 ops : List (Op K V)) (key : K)
    (value : V) (m1 m2 : Map K V) (hvc : ValidConfig c)
    (hput : Put hc (runOps hc (New c) ops0) key value = (m1, true))
    (hrun : runOps hc m1 ops = m2)
    (hfree : ∀ op ∈ ops, ¬ touchesKey key op) :
    Get hc m2 key = (value, true) := by
  have hwf0 : WF hc (runOps hc (New c) ops0) := WF_runOps hc ops0 _ (WF_new hc c hvc)
  have h2 : (Put hc (runOps hc (New c) ops0) key value).2 = true := by rw [hput]
  have hm1 : WF hc m1 ∧ MapsTo m1 key value := by
    have h1 : (Put hc (runOps hc (New c) ops0) key value).1 = m1 := by rw [hput]
    by_cases hp : ∃ w, MapsTo (runOps hc (New c) ops0) key w
    · obtain ⟨w, s, hs, hkv⟩ := hp
      have heq := Put_overwrite_eq hc _ hwf0 key w value s hs hkv
      rw [heq] at h1
      simp only at h1
      rw [← h1]
      exact ⟨WF_overwrite hc _ hwf0 key w value s hs hkv,
        (mapsTo_overwrite hc _ hwf0 key w value s hs hkv).1⟩
    · push_neg at hp
      obtain ⟨hwf2, -, htrue, -⟩ := Put_insert_spec hc _ key value hwf0 hp
      obtain ⟨hmt, -, -⟩ := htrue h2
      rw [h1] at hwf2 hmt
      exact ⟨hwf2, hmt⟩
  rw [← hrun]
  exact Get_eq_of_mapsTo hc _ (WF_runOps hc ops _ hm1.1) key value
    (mapsTo_runOps_untouched hc key value ops m1 hm1.1 hm1.2 hfree)

/-- C2: after any sequence of `Put` and `Delete` operations starting from a
fresh table (positive capacity, `1 ≤ BucketSize ≤ 32`), every occupied slot
`s` holding key `k` with home `h = hash(k) mod capacity` lies fewer than
`BucketSize` forward hops (`hopDist`, the Go `mod(i - h, capacity)`) from
`h`, and the bit at that offset, counted from the most significant bit, is
set in `neighbors[h]`. -/
theorem C2_bounded_displacement (c : Config) (ops : List (Op K V))
    (hS : 0 < c.Size) (hB1 : 1 ≤ c.BucketSize) (hB32 : c.BucketSize ≤ 32)
    (s : Nat) (k : K) (v : V)
    (hs : s < (runOps hc (New c) ops).config.Size)
    (hocc : (runOps hc (New c) ops).entries.getD s none = some (k, v)) :
    hopDist (runOps hc (New c) ops).config.Size
        (hashKey hc (runOps hc (New c) ops).config.Size k) s <
      (runOps hc (New c) ops).config.BucketSize ∧
    ((runOps hc (New c) ops).neighbors.getD
        (hashKey hc (runOps hc (New c) ops).config.Size k) 0).testBit
      (31 - hopDist (runOps hc (New c) ops).config.Size
        (hashKey hc (runOps hc (New c) ops).config.Size k) s) = true :=
  (WF_runOps hc ops (New c) (WF_new hc c ⟨hS, hB32⟩)).occ s k v hs hocc

/-- C3: on a reachable table, deleting a present key returns its stored
value with `true`, afterwards `Get` misses with the zero value, and `Len`
drops by exactly one; deleting an absent key returns the zero value with
`false` and leaves the entire table state unchanged. -/
theorem C3_delete_spec (c : Config) (ops : List (Op K V)) (key : K)
    (m : Map K V) (hvc : ValidConfig c) (hm : m = runOps hc (New c) ops) :
    (∀ v, MapsTo m key v →
      (Delete hc m key).2.1 = v ∧ (Delete hc m key).2.2 = true ∧
      Get hc (Delete hc m key).1 key = (default, false) ∧
      Len (Delete hc m key).1 = Len m - 1) ∧
    ((∀ v, ¬ MapsTo m key v) → Delete hc m key = (m, default, false)) := by
  have hwf : WF hc m := by
    rw [hm]
    exact WF_runOps hc ops _ (WF_new hc c hvc)
  constructor
  · rintro v ⟨s, hs, hkv⟩
    have heq := Delete_present_eq hc m hwf key v s hs hkv
    rw [heq]
    refine ⟨rfl, rfl, ?_, rfl⟩
    exact Get_eq_of_absent hc _ (WF_delete hc m hwf key v s hs hkv) key
      (not_mapsTo_delete hc m hwf key v s hs hkv)
  · intro habs
    exact Delete_absent_eq hc m hwf key habs

/-- C4: on a reachable table, `Put` of an already-present key returns true
and only updates that key's stored value in place: the entry counter, every
other slot and all neighborhood bitmaps are untouched, and no relocation
occurs. -/
theorem C4_overwrite_in_place (c : Config) (ops : List (Op K V)) (m : Map K V)
    (hvc : ValidConfig c) (hm : m = runOps hc (New c) ops)
    (key : K) (v0 value : V) (s : Nat)
    (hs : s < m.config.Size) (hkv : m.entries.getD s none = some (key, v0)) :
    Put hc m key value =
      ({ m with entries := m.entries.set s (some (key, value)) }, true) := by
  have hwf : WF hc m := by
    rw [hm]
    exact WF_runOps hc ops _ (WF_new hc c hvc)
  exact Put_overwrite_eq hc m hwf key v0 value s hs hkv

/-- C5: after any `Put` on a reachable table that returns false, the table
is still valid and usable: `Len` is unchanged and every key retrievable
before the failed call is still retrievable with the same value, even
though entries may have been relocated internally. -/
theorem C5_failed_put_safe (c : Config) (ops : List (Op K V)) (m m2 : Map K V)
    (hvc : ValidConfig c) (hm : m = runOps hc (New c) ops)
    (key : K) (value : V)
    (hput : Put hc m key value = (m2, false)) :
    Len m2 = Len m ∧
    ∀ k w, Get hc m k = (w, true) → Get hc m2 k = (w, true) := by
  have hwf : WF hc m := by
    rw [hm]
    exact WF_runOps hc ops _ (WF_new hc c hvc)
  by_cases hp : ∃ w, MapsTo m key w
  · exfalso
    obtain ⟨w, s, hs, hkv⟩ := hp
    rw [Put_overwrite_eq hc m hwf key w value s hs hkv] at hput
    have := congrArg Prod.snd hput
    simp at this
  · push_neg at hp
    obtain ⟨hwf2, -, -, hfalse⟩ := Put_insert_spec hc m key value hwf hp
    have h1 : (Put hc m key value).1 = m2 := by rw [hput]
    have h2 : (Put hc m key value).2 = false := by rw [hput]
    obtain ⟨hiff, hn⟩ := hfalse h2
    rw [h1] at hiff hn hwf2
    constructor
    · exact hn
    · intro k w hget
      exact Get_eq_of_mapsTo hc m2 hwf2 k w
        ((hiff k w).2 (mapsTo_of_get hc m hwf k w hget))

/-- C6: the `findEntry` scan behind `Get` performs at most one key
comparison per set bit of the home's 32-bit bitmap word, hence at most 32
slot examinations and key comparisons, for every table state and key,
independent of load and capacity. -/
theorem C6_probe_bound (m : Map K V) (hash : Nat) (key : K)
    (hnb : m.neighbors.getD hash 0 < 2 ^ 32) :
    findEntryProbes m hash key ≤ popcount32 (m.neighbors.getD hash 0) ∧
    popcount32 (m.neighbors.getD hash 0) ≤ 32 ∧
    findEntryProbes m hash key ≤ 32 := by
  have h1 : findEntryProbes m hash key ≤ popcount32 (m.neighbors.getD hash 0) :=
    findEntryProbesAux_le m.config.Size m.entries key 33 (m.neighbors.getD hash 0) _ hnb
  have h2 : popcount32 (m.neighbors.getD hash 0) ≤ 32 := popcount32_le _
  exact ⟨h1, h2, by omega⟩

/-- C7: when `Put` is inserting an absent key and the empty slot found by
forward linear probing has a fully saturated own bitmap (all 32 bits set),
`Put` returns false immediately with the table unchanged, without
attempting any displacement. -/
theorem C7_saturated_bitmap_guard (m : Map K V) (key : K) (value : V)
    (habsent : findEntry m (hashKey hc m.config.Size key) key < 0)
    (hfound : 0 ≤ findEmptySlot m (hashKey hc m.config.Size key))
    (hfull : m.neighbors.getD
      (findEmptySlot m (hashKey hc m.config.Size key)).toNat 0 = allBitSet) :
    Put hc m key value = (m, false) := by
  simp only [Put, if_neg (by omega : ¬ (0 : Int) ≤
    findEntry m (hashKey hc m.config.Size key) key), if_pos (Or.inr hfull)]

/-- C8 counterexample: construction does not reject or clamp a bucket size
above the 32-bit bitmap width; `New` with `BucketSize = 33` silently
produces a fully operational table that still carries 33. -/
theorem C8_counterexample :
    (New (K := Nat) (V := Nat) ⟨8, 33, false⟩).config.BucketSize = 33 ∧
    32 < (New (K := Nat) (V := Nat) ⟨8, 33, false⟩).config.BucketSize ∧
    (New (K := Nat) (V := Nat) ⟨8, 33, false⟩).entries.length = 8 ∧
    (Put (fun k => k) (New ⟨8, 33, false⟩) 0 5).2 = true ∧
    Get (fun k => k) (Put (fun k => k) (New ⟨8, 33, false⟩) 0 5).1 0 = (5, true) := by
  refine ⟨rfl, by decide, by decide, by decide, by decide⟩

/-- C8 (amended): `New` performs no validation of the bucket size; a
configuration with `BucketSize > 32` is accepted silently, the table is
allocated normally and stores the oversized bucket size unchanged
(`BucketSize ≤ 32` is a documented caller precondition). -/
theorem C8_no_bucket_validation (c : Config) (hgt : 32 < c.BucketSize) :
    (New (K := Nat) (V := Nat) c).config.BucketSize = c.BucketSize ∧
    32 < (New (K := Nat) (V := Nat) c).config.BucketSize ∧
    (New (K := Nat) (V := Nat) c).entries.length = c.Size ∧
    (New (K := Nat) (V := Nat) c).neighbors.length = c.Size :=
  ⟨rfl, hgt, List.length_replicate _ _, List.length_replicate _ _⟩

/-- C9: the `AutoResize` flag is never acted upon — flipping it changes the
result of no operation (also along whole operation sequences), and the
map.go table behaves identically to the flag-free part_000 variant under
the field-for-field correspondence `toMap0`. -/
theorem C9_autoresize_never_acted_upon (m : Map K V) (b : Bool) (key : K)
    (value : V) (ops : List (Op K V)) :
    Get hc (setAuto m b) key = Get hc m key ∧
    Put hc (setAuto m b) key value =
      (setAuto (Put hc m key value).1 b, (Put hc m key value).2) ∧
    Delete hc (setAuto m b) key =
      (setAuto (Delete hc m key).1 b, (Delete hc m key).2.1, (Delete hc m key).2.2) ∧
    Len (setAuto m b) = Len m ∧
    Size (setAuto m b) = Size m ∧
    Load (setAuto m b) = Load m ∧
    runOps hc (setAuto m b) ops = setAuto (runOps hc m ops) b ∧
    Get0 hc (toMap0 m) key = Get hc m key ∧
    Put0 hc (toMap0 m) key value =
      (toMap0 (Put hc m key value).1, (Put hc m key value).2) ∧
    Delete0 hc (toMap0 m) key =
      (toMap0 (Delete hc m key).1, (Delete hc m key).2.1, (Delete hc m key).2.2) ∧
    Len0 (toMap0 m) = Len m ∧
    Size0 (toMap0 m) = Size m ∧
    Load0 (toMap0 m) = Load m :=
  ⟨Get_setAuto hc m b key, Put_setAuto hc m b key value, Delete_setAuto hc m b key,
    rfl, rfl, rfl, runOps_setAuto hc ops m b, Get0_toMap0 hc m key,
    Put0_toMap0 hc m key value, Delete0_toMap0 hc m key, rfl, rfl, rfl⟩

/-- C10: when `Put` of an absent key fails through its early guard — no
empty slot exists, or the candidate empty slot's own bitmap is fully
saturated — the table is returned entirely unchanged: same entries, same
bitmaps, same counter. -/
theorem C10_early_guard_unchanged (m : Map K V) (key : K) (value : V)
    (habsent : findEntry m (hashKey hc m.config.Size key) key < 0)
    (hguard : findEmptySlot m (hashKey hc m.config.Size key) < 0 ∨
      m.neighbors.getD (findEmptySlot m (hashKey hc m.config.Size key)).toNat 0 =
        allBitSet) :
    Put hc m key value = (m, false) := by
  simp only [Put, if_neg (by omega : ¬ (0 : Int) ≤
    findEntry m (hashKey hc m.config.Size key) key), if_pos hguard]

/-! Concrete witnesses instantiating the claim theorems. -/

theorem C1_put_get_roundtrip_witness :
    Get (fun k => k)
      (runOps (fun k => k)
        (Put (fun k => k) (runOps (fun k => k) (New ⟨4, 4, false⟩) []) 1 7).1
        [Op.put 2 9]) 1 = (7, true) :=
  C1_put_get_roundtrip (fun k => k) ⟨4, 4, false⟩ [] [Op.put 2 9] 1 7
    (Put (fun k => k) (runOps (fun k => k) (New ⟨4, 4, false⟩) []) 1 7).1
    (runOps (fun k => k)
      (Put (fun k => k) (runOps (fun k => k) (New ⟨4, 4, false⟩) []) 1 7).1
      [Op.put 2 9])
    ⟨by decide, by decide⟩ (by decide) rfl
    (by
      intro op hop
      rw [List.mem_singleton] at hop
      subst hop
      exact (by decide : ¬ (2 = 1)))

theorem C2_bounded_displacement_witness :
    hopDist (runOps (fun k => k) (New ⟨4, 4, false⟩) [Op.put 1 7]).config.Size
        (hashKey (fun k => k)
          (runOps (fun k => k) (New ⟨4, 4, false⟩) [Op.put 1 7]).config.Size 1) 1 <
      (runOps (fun k => k) (New ⟨4, 4, false⟩) [Op.put 1 7]).config.BucketSize ∧
    ((runOps (fun k => k) (New ⟨4, 4, false⟩) [Op.put 1 7]).neighbors.getD
        (hashKey (fun k => k)
          (runOps (fun k => k) (New ⟨4, 4, false⟩) [Op.put 1 7]).config.Size 1) 0).testBit
      (31 - hopDist (runOps (fun k => k) (New ⟨4, 4, false⟩) [Op.put 1 7]).config.Size
        (hashKey (fun k => k)
          (runOps (fun k => k) (New ⟨4, 4, false⟩) [Op.put 1 7]).config.Size 1) 1) = true :=
  C2_bounded_displacement (fun k => k) ⟨4, 4, false⟩ [Op.put 1 7]
    (by decide) (by decide) (by decide) 1 1 7 (by decide) (by decide)

theorem C3_delete_spec_witness :
    (∀ v, MapsTo (runOps (fun k => k) (New ⟨4, 4, false⟩) [Op.put 1 7]) 1 v →
      (Delete (fun k => k) (runOps (fun k => k) (New ⟨4, 4, false⟩) [Op.put 1 7]) 1).2.1 = v ∧
      (Delete (fun k => k) (runOps (fun k => k) (New ⟨4, 4, false⟩) [Op.put 1 7]) 1).2.2 = true ∧
      Get (fun k => k)
        (Delete (fun k => k) (runOps (fun k => k) (New ⟨4, 4, false⟩) [Op.put 1 7]) 1).1 1 =
        (default, false) ∧
      Len (Delete (fun k => k) (runOps (fun k => k) (New ⟨4, 4, false⟩) [Op.put 1 7]) 1).1 =
        Len (runOps (fun k => k) (New ⟨4, 4, false⟩) [Op.put 1 7]) - 1) ∧
    ((∀ v, ¬ MapsTo (runOps (fun k => k) (New ⟨4, 4, false⟩) [Op.put 1 7]) 1 v) →
      Delete (fun k => k) (runOps (fun k => k) (New ⟨4, 4, false⟩) [Op.put 1 7]) 1 =
        (runOps (fun k => k) (New ⟨4, 4, false⟩) [Op.put 1 7], default, false)) :=
  C3_delete_spec (fun k => k) ⟨4, 4, false⟩ [Op.put 1 7] 1
    (runOps (fun k => k) (New ⟨4, 4, false⟩) [Op.put 1 7]) ⟨by decide, by decide⟩ rfl

theorem C4_overwrite_in_place_witness :
    Put (fun k => k) (runOps (fun k => k) (New ⟨4, 4, false⟩) [Op.put 1 7]) 1 9 =
      ({ runOps (fun k => k) (New ⟨4, 4, false⟩) [Op.put 1 7] with
          entries := (runOps (fun k => k) (New ⟨4, 4, false⟩)
            [Op.put 1 7]).entries.set 1 (some (1, 9)) }, true) :=
  C4_overwrite_in_place (fun k => k) ⟨4, 4, false⟩ [Op.put 1 7]
    (runOps (fun k => k) (New ⟨4, 4, false⟩) [Op.put 1 7]) ⟨by decide, by decide⟩ rfl
    1 7 9 1 (by decide) (by decide)

theorem C5_failed_put_safe_witness :
    Len (Put (fun k => k)
      (runOps (fun k => k) (New ⟨8, 3, false⟩)
        [Op.put 3 30, Op.put 11 31, Op.put 19 32, Op.put 5 50]) 27 99).1 =
      Len (runOps (fun k => k) (New ⟨8, 3, false⟩)
        [Op.put 3 30, Op.put 11 31, Op.put 19 32, Op.put 5 50]) ∧
    ∀ k w, Get (fun k => k)
        (runOps (fun k => k) (New ⟨8, 3, false⟩)
          [Op.put 3 30, Op.put 11 31, Op.put 19 32, Op.put 5 50]) k = (w, true) →
      Get (fun k => k)
        (Put (fun k => k)
          (runOps (fun k => k) (New ⟨8, 3, false⟩)
            [Op.put 3 30, Op.put 11 31, Op.put 19 32, Op.put 5 50]) 27 99).1 k =
        (w, true) :=
  C5_failed_put_safe (fun k => k) ⟨8, 3, false⟩
    [Op.put 3 30, Op.put 11 31, Op.put 19 32, Op.put 5 50]
    (runOps (fun k => k) (New ⟨8, 3, false⟩)
      [Op.put 3 30, Op.put 11 31, Op.put 19 32, Op.put 5 50])
    (Put (fun k => k)
      (runOps (fun k => k) (New ⟨8, 3, false⟩)
        [Op.put 3 30, Op.put 11 31, Op.put 19 32, Op.put 5 50]) 27 99).1
    ⟨by decide, by decide⟩ rfl 27 99 (by decide)

theorem C6_probe_bound_witness :
    findEntryProbes (New (K := Nat) (V := Nat) ⟨2, 2, false⟩) 0 0 ≤
      popcount32 ((New (K := Nat) (V := Nat) ⟨2, 2, false⟩).neighbors.getD 0 0) ∧
    popcount32 ((New (K := Nat) (V := Nat) ⟨2, 2, false⟩).neighbors.getD 0 0) ≤ 32 ∧
    findEntryProbes (New (K := Nat) (V := Nat) ⟨2, 2, false⟩) 0 0 ≤ 32 :=
  C6_probe_bound (New ⟨2, 2, false⟩) 0 0 (by decide)

theorem C7_saturated_bitmap_guard_witness :
    Put (fun k => k)
      (⟨⟨2, 32, false⟩, [some (5, 1), none], [4294967295, 4294967295], 1⟩ : Map Nat Nat)
      0 9 =
      ((⟨⟨2, 32, false⟩, [some (5, 1), none], [4294967295, 4294967295], 1⟩ : Map Nat Nat),
        false) :=
  C7_saturated_bitmap_guard (fun k => k)
    (⟨⟨2, 32, false⟩, [some (5, 1), none], [4294967295, 4294967295], 1⟩ : Map Nat Nat)
    0 9 (by decide) (by decide) (by decide)

theorem C8_no_bucket_validation_witness :
    (New (K := Nat) (V := Nat) ⟨8, 33, false⟩).config.BucketSize = 33 ∧
    32 < (New (K := Nat) (V := Nat) ⟨8, 33, false⟩).config.BucketSize ∧
    (New (K := Nat) (V := Nat) ⟨8, 33, false⟩).entries.length = 8 ∧
    (New (K := Nat) (V := Nat) ⟨8, 33, false⟩).neighbors.length = 8 :=
  C8_no_bucket_validation ⟨8, 33, false⟩ (by decide)

theorem C10_early_guard_unchanged_witness :
    Put (fun k => k) (⟨⟨1, 32, false⟩, [some (3, 4)], [2147483648], 1⟩ : Map Nat Nat)
      0 9 =
      ((⟨⟨1, 32, false⟩, [some (3, 4)], [2147483648], 1⟩ : Map Nat Nat), false) :=
  C10_early_guard_unchanged (fun k => k)
    (⟨⟨1, 32, false⟩, [some (3, 4)], [2147483648], 1⟩ : Map Nat Nat)
    0 9 (by decide) (Or.inl (by decide))

end Hopmap
